import Mathlib

/-!
Verification of the gollm session / streaming-aggregator core of the
kubectl-ai fork (packages `gollm` and `gollm/bedrock`).

The definitions below are a shallow embedding of the Go sources:

* `src/gollm/bedrock/bedrock.go`  — the Bedrock chat session: `Send`,
  `SendStreaming`, `processContents`, `addMessage` and friends,
  `createStreamingIterator`, `parseConverseOutput`, `convertAWSUsage`,
  `IsRetryableError`, `StartChat`.
* `src/gollm/bedrock/types.go`    — `isModelSupported`, `BedrockOptions`.
* `src/gollm/nirmata.go`          — the Nirmata chat session:
  `convertContentsToMessage`, the `SendStreaming` chunk loop,
  `IsRetryableError`.

Go maps from string keys are modelled as association lists, Go `*T`
pointers as `Option T`, fallible operations as `Except`/`Option`.
-/

deriving instance DecidableEq for Except

namespace KubectlAI

/-! ## String helpers (models of the Go standard library functions used) -/

/-- ASCII lower-casing of one character. -/
def charToLower (c : Char) : Char :=
  if 'A' ≤ c ∧ c ≤ 'Z' then Char.ofNat (c.toNat + 32) else c

/-- Model of `strings.ToLower` (ASCII case folding, which is all the code
relies on: model identifiers are ASCII). -/
def strToLower (s : String) : String :=
  String.mk (s.data.map charToLower)

/-- Split a character list at every occurrence of a separator character
(`strings.Split` semantics: `split '/' [] = [[]]`). -/
def splitOnChar (sep : Char) : List Char → List (List Char)
  | [] => [[]]
  | c :: t =>
    if c == sep then [] :: splitOnChar sep t
    else
      match splitOnChar sep t with
      | h :: rest => (c :: h) :: rest
      | [] => [[c]]

/-- Model of `strings.Split(s, "/")`. -/
def strSplitOnSlash (s : String) : List String :=
  (splitOnChar '/' s.data).map String.mk

/-- Boolean prefix test on character lists. -/
def listStartsWith : List Char → List Char → Bool
  | [], _ => true
  | _ :: _, [] => false
  | a :: as, b :: bs => a == b && listStartsWith as bs

/-- Boolean substring test on character lists. -/
def listHasSub (hay needle : List Char) : Bool :=
  match hay with
  | [] => needle.isEmpty
  | _ :: t => listStartsWith needle hay || listHasSub t needle

/-- Model of `strings.Contains`. -/
def strContains (hay needle : String) : Bool :=
  listHasSub hay.toList needle.toList

/-- Model of `strings.Join` (also used for `String.intercalate`-like joins):
`strJoin sep [a, b, c] = a ++ sep ++ b ++ sep ++ c`. -/
def strJoin (sep : String) : List String → String
  | [] => ""
  | [x] => x
  | x :: xs => x ++ sep ++ strJoin sep xs

/-! ## Mini JSON object decoding

`encoding/json.Unmarshal` restricted to the shapes the streaming claims
exercise: flat objects whose values are strings.  Any input that is not a
complete such object decodes to `none`, matching `json.Unmarshal` returning
an error (in particular every truncated fragment and every input with a
non-brace first significant character fails, as in Go). -/

/-- Skip ASCII blanks. -/
def skipWs : List Char → List Char
  | c :: t => if c == ' ' || c == '\t' || c == '\n' || c == '\r' then skipWs t else c :: t
  | [] => []

/-- Decode a JSON string body after the opening quote; no escape support
(none of the payloads in this repository contain escapes). Returns the
string and the rest after the closing quote. -/
def decodeStringBody : List Char → Option (String × List Char)
  | [] => none
  | c :: t =>
    if c == '"' then some ("", t)
    else if c == '\\' then none
    else match decodeStringBody t with
      | some (s, rest) => some (String.mk (c :: s.toList), rest)
      | none => none

/-- Decode the fields of an object after the opening brace (fuelled; the
fuel only bounds the number of fields). -/
def decodeFields (fuel : Nat) (cs : List Char) (acc : List (String × String)) :
    Option (List (String × String) × List Char) :=
  match fuel with
  | 0 => none
  | fuel + 1 =>
    match skipWs cs with
    | '"' :: t =>
      match decodeStringBody t with
      | none => none
      | some (key, rest1) =>
        match skipWs rest1 with
        | ':' :: rest2 =>
          match skipWs rest2 with
          | '"' :: rest3 =>
            match decodeStringBody rest3 with
            | none => none
            | some (val, rest4) =>
              match skipWs rest4 with
              | ',' :: rest5 => decodeFields fuel rest5 (acc ++ [(key, val)])
              | '\x7d' :: rest5 => some (acc ++ [(key, val)], rest5)
              | _ => none
          | _ => none
        | _ => none
    | _ => none

/-- Model of `json.Unmarshal(s, &v)` followed by the `v.(map[string]any)`
check: decodes a complete flat JSON object with string values, `none` on
any malformed or truncated input. -/
def jsonDecodeObj (s : String) : Option (List (String × String)) :=
  match skipWs s.toList with
  | '\x7b' :: t =>
    match skipWs t with
    | '\x7d' :: rest => if (skipWs rest).isEmpty then some [] else none
    | _ =>
      match decodeFields (s.length + 1) t [] with
      | some (fields, rest) => if (skipWs rest).isEmpty then some fields else none
      | none => none
  | _ => none

/-! ## Content model (gollm + Bedrock `types.Message`) -/

/-- Conversation roles used by the Bedrock session.  The system prompt is
held outside the history (`bedrockChatSession.systemPrompt`), so only
user/assistant appear in `history`. -/
inductive Role where
  | user
  | assistant
  deriving DecidableEq, Repr

/-- Model of `gollm.FunctionCall`: arguments are an association list
standing in for the Go `map[string]any` (string values suffice for the
streamed payloads in scope). -/
structure FunctionCall where
  id : String
  name : String
  args : List (String × String)
  deriving DecidableEq, Repr

/-- Content blocks of an AWS `types.Message` as the session builds them:
text, tool-use and tool-result blocks. -/
inductive BBlock where
  | text (s : String)
  | toolUse (id name : String) (args : List (String × String))
  | toolResult (callId : String) (content : String)
  deriving DecidableEq, Repr

/-- Model of AWS `types.Message`. -/
structure BMessage where
  role : Role
  content : List BBlock
  deriving DecidableEq, Repr

/-- Tool-use ids appearing in a message's blocks. -/
def BMessage.toolIds (m : BMessage) : List String :=
  m.content.filterMap fun b =>
    match b with
    | .toolUse i _ _ => some i
    | _ => none

/-- Tool-use ids appearing anywhere in a history. -/
def histToolIds (h : List BMessage) : List String :=
  h.flatMap BMessage.toolIds

/-! ## Usage normalization (`convertAWSUsage`, bedrock.go lines 94-111) -/

/-- Model of AWS `types.TokenUsage`: three `*int32` fields. -/
structure TokenUsageData where
  inputTokens : Option Int
  outputTokens : Option Int
  totalTokens : Option Int
  deriving DecidableEq, Repr

/-- The `awsUsage any` parameter of `convertAWSUsage`: a nil interface, a
`*types.TokenUsage`, or any other dynamic value (unrecognized). -/
inductive AWSUsagePayload where
  | nilPayload
  | token (t : TokenUsageData)
  | unrecognized
  deriving DecidableEq, Repr

/-- Model of `gollm.Usage` as `convertAWSUsage` fills it.  The
`Timestamp: time.Now()` field and the cost fields (never set here) are
omitted from the embedding. -/
structure GUsage where
  inputTokens : Int
  outputTokens : Int
  totalTokens : Int
  model : String
  provider : String
  deriving DecidableEq, Repr

/-- Embedding of `convertAWSUsage` (bedrock.go 94-111).  `aws.ToInt32`
dereferences with 0 for nil, modelled by `Option.getD 0`. -/
def convertAWSUsage (awsUsage : AWSUsagePayload) (model provider : String) : Option GUsage :=
  match awsUsage with
  | .nilPayload => none
  | .token t =>
    some { inputTokens := t.inputTokens.getD 0
           outputTokens := t.outputTokens.getD 0
           totalTokens := t.totalTokens.getD 0
           model := model
           provider := provider }
  | .unrecognized => none

/-! ## Raw streaming events (`types.ConverseStreamOutput` members)

Every content-block event of the AWS stream carries a `ContentBlockIndex`
(the slot); `createStreamingIterator` never reads it, but it is kept in the
embedding so that slot-level claims can be stated. -/

inductive BEvent where
  | messageStart
  /-- `ContentBlockStart` whose `Start` is `ContentBlockStartMemberToolUse`;
  `ToolUseId`/`Name` are `*string`. -/
  | blockStartToolUse (slot : Nat) (toolUseId name : Option String)
  /-- `ContentBlockStart` with a nil or non-tool-use `Start`. -/
  | blockStartOther (slot : Nat)
  /-- `ContentBlockDelta` with `ContentBlockDeltaMemberText`. -/
  | blockDeltaText (slot : Nat) (text : String)
  /-- `ContentBlockDelta` with `ContentBlockDeltaMemberToolUse`; the
  `Input` field is a `*string` JSON fragment. -/
  | blockDeltaToolUse (slot : Nat) (input : Option String)
  /-- `ContentBlockStop`. -/
  | blockStop (slot : Nat)
  | messageStop
  /-- `Metadata`; carries `Usage *types.TokenUsage`. -/
  | metadata (usage : Option TokenUsageData)
  /-- Any other event type (hits the `default` arm, ignored). -/
  | otherEvent
  deriving DecidableEq, Repr

/-- Essence of each `bedrockChatResponse` the iterator yields: a text
delta, a completed tool call, or the final usage report. -/
inductive StreamUnit where
  | textDelta (s : String)
  | completedTool (c : FunctionCall)
  | usageReport (t : TokenUsageData)
  deriving DecidableEq, Repr

/-- The id of a completed-tool-call unit, if the unit is one. -/
def StreamUnit.completedId : StreamUnit → Option String
  | .completedTool c => some c.id
  | _ => none

/-- Mutable state of `createStreamingIterator`'s event loop, plus the
session history it commits into (`cs.history`). -/
structure AggState where
  fullContent : String
  currentToolCall : Option FunctionCall
  collectedToolCalls : List FunctionCall
  usage : Option TokenUsageData
  history : List BMessage
  deriving DecidableEq, Repr

/-- Initial loop state over a given session history. -/
def initAgg (h : List BMessage) : AggState :=
  { fullContent := "", currentToolCall := none, collectedToolCalls := [],
    usage := none, history := h }

/-- Embedding of `createToolUseBlock` (bedrock.go 418-435): empty argument
maps are materialized as an (equally empty) explicit map. -/
def createToolUseBlock (c : FunctionCall) : BBlock :=
  .toolUse c.id c.name c.args

/-- Embedding of `addMessage` (bedrock.go 372-384): empty block lists are
skipped, not stored. -/
def addMessage (h : List BMessage) (role : Role) (blocks : List BBlock) : List BMessage :=
  if blocks.isEmpty then h else h ++ [{ role := role, content := blocks }]

/-- Embedding of `addTextMessage` (bedrock.go 386-392). -/
def addTextMessage (h : List BMessage) (role : Role) (content : String) : List BMessage :=
  if content == "" then h else addMessage h role [.text content]

/-- One iteration of the `for event := range output.GetStream().Events()`
switch in `createStreamingIterator` (bedrock.go 680-810): the next state
and the unit yielded by this event, if any.  Note that the slot indices on
the events are ignored, exactly as in the source. -/
def stepEvent (st : AggState) (e : BEvent) : AggState × Option StreamUnit :=
  match e with
  | .messageStart => (st, none)
  | .blockStartToolUse _ tid nm =>
    let fc : FunctionCall := { id := tid.getD "", name := nm.getD "", args := [] }
    ({ st with currentToolCall := some fc }, none)
  | .blockStartOther _ => (st, none)
  | .blockDeltaText _ s =>
    ({ st with fullContent := st.fullContent ++ s }, some (.textDelta s))
  | .blockDeltaToolUse _ inp =>
    match st.currentToolCall, inp with
    | some c, some s =>
      match jsonDecodeObj s with
      | some m => ({ st with currentToolCall := some ({ c with args := m }) }, none)
      | none => (st, none)
    | _, _ => (st, none)
  | .blockStop _ =>
    match st.currentToolCall with
    | some c =>
      ({ st with collectedToolCalls := st.collectedToolCalls ++ [c],
                 currentToolCall := none }, some (.completedTool c))
    | none => (st, none)
  | .messageStop =>
    let h1 := addTextMessage st.history .assistant st.fullContent
    let h2 := if st.collectedToolCalls.isEmpty then h1
              else addMessage h1 .assistant (st.collectedToolCalls.map createToolUseBlock)
    ({ st with history := h2 }, none)
  | .metadata u =>
    match u with
    | some t => ({ st with usage := some t }, some (.usageReport t))
    | none => (st, none)
  | .otherEvent => (st, none)

/-- Run of the iterator when the caller accepts every yielded unit
(`yield` always returns true): final state and the units delivered. -/
def runAll : AggState → List BEvent → AggState × List StreamUnit
  | st, [] => (st, [])
  | st, e :: es =>
    match stepEvent st e with
    | (st1, none) => runAll st1 es
    | (st1, some u) =>
      let r := runAll st1 es
      (r.1, u :: r.2)

/-- Result of a budgeted run: the iterator state when the loop exits, the
units that were passed to `yield`, the unused budget, and whether the loop
was exited by `yield` returning false. -/
structure RunResult where
  state : AggState
  units : List StreamUnit
  budget : Nat
  aborted : Bool
  deriving DecidableEq, Repr

/-- Run of the iterator against a caller that answers `true` to the first
`budget` yields and `false` afterwards (abandoning the sequence): on a
`false` answer the iterator returns at once (`if !yield(...) { return }`),
before processing any further event. -/
def runAgg : AggState → List BEvent → Nat → RunResult
  | st, [], b => ⟨st, [], b, false⟩
  | st, e :: es, b =>
    match stepEvent st e with
    | (st1, none) => runAgg st1 es b
    | (st1, some u) =>
      match b with
      | 0 => ⟨st1, [u], 0, true⟩
      | b + 1 =>
        let r := runAgg st1 es b
        ⟨r.state, u :: r.units, r.budget, r.aborted⟩

/-- Concatenation of all streamed text deltas of an event list (what
`fullContent` accumulates). -/
def concatTexts : List BEvent → String
  | [] => ""
  | .blockDeltaText _ s :: es => s ++ concatTexts es
  | _ :: es => concatTexts es

/-- Resolved tool-use ids of the tool-call slot-open events in a list. -/
def openToolIds : List BEvent → List String
  | [] => []
  | .blockStartToolUse _ tid _ :: es => tid.getD "" :: openToolIds es
  | _ :: es => openToolIds es

/-- True when the list contains no `messageStop` event. -/
def noMessageStop (es : List BEvent) : Bool :=
  es.all fun e => match e with | .messageStop => false | _ => true

/-- True when the list contains no `blockStop` event (for any slot). -/
def noBlockStop (es : List BEvent) : Bool :=
  es.all fun e => match e with | .blockStop _ => false | _ => true

/-! ## Model support check (`isModelSupported`, types.go 57-101)

The Go function is recursive: for a `foundation-model` ARN it re-invokes
itself on the last `/`-separated segment.  When that segment still matches
the `arn:aws:bedrock` + `foundation-model` guards (and contains no `/`),
the recursion never terminates, so the embedding is fuelled and returns
`none` when the fuel runs out.  Every terminating execution has recursion
depth at most 2 (the recursive argument contains no `/`, so a second
recursive step can only repeat the same string forever), hence fuel 2 in
the unfuelled wrapper is exact: a `none` at fuel 2 is a `none` at every
fuel, i.e. divergence of the Go code. -/

/-- Supported model list (`getSupportedModels`, types.go 103-111). -/
def getSupportedModels : List String :=
  [ "us.anthropic.claude-sonnet-4-20250514-v1:0",
    "us.anthropic.claude-3-7-sonnet-20250219-v1:0",
    "us.amazon.nova-pro-v1:0",
    "us.amazon.nova-lite-v1:0",
    "us.amazon.nova-micro-v1:0" ]

/-- Fuelled embedding of `isModelSupported` (types.go 57-101). -/
def isModelSupportedF : Nat → String → Option Bool
  | 0, _ => none
  | fuel + 1, model =>
    if model == "" then some false
    else
      let modelLower := strToLower model
      if getSupportedModels.any (fun s => modelLower == strToLower s) then some true
      else if strContains modelLower "arn:aws:bedrock" then
        -- the three nested `if`s of the inference-profile branch all
        -- return true, collapsed here
        if strContains modelLower "inference-profile" then some true
        else if strContains modelLower "foundation-model" then
          match (strSplitOnSlash model).getLast? with
          | some extracted => isModelSupportedF fuel extracted
          | none => some false
        else some false
      else some false

/-- The unfuelled check; `none` means the Go function does not return. -/
def isModelSupported (model : String) : Option Bool :=
  isModelSupportedF 2 model

/-- The support check loops forever on this model string: it never returns
at any recursion depth. -/
def isModelSupportedLoops (model : String) : Prop :=
  ∀ fuel, isModelSupportedF fuel model = none

/-- Model of `BedrockOptions` restricted to the field the session logic
reads (`Model`; region, sampling and retry knobs do not influence the
claims in scope). -/
structure BedrockOptions where
  model : String
  deriving DecidableEq, Repr

/-- Model of `bedrockChatSession` (bedrock.go 225-231): the fields the
claims in scope read (`functionDefs` and the client back-pointer only
shape the outgoing request payload, not history or results). -/
structure BSession where
  model : String
  systemPrompt : String
  history : List BMessage
  deriving DecidableEq, Repr

/-- Embedding of `BedrockClient.StartChat` (bedrock.go 161-187).  The
result is `none` when the support check diverges (the Go call never
returns); otherwise a fresh session, falling back to the client's
configured default model when the requested one is unsupported. -/
def bedrockStartChat (options : BedrockOptions) (systemPrompt model : String) :
    Option BSession :=
  let selectedModel := if model == "" then options.model else model
  match isModelSupported selectedModel with
  | none => none
  | some true => some { model := selectedModel, systemPrompt := systemPrompt, history := [] }
  | some false => some { model := options.model, systemPrompt := systemPrompt, history := [] }

/-! ## The Bedrock chat session: `Send` and helpers -/

/-- The `contents ...any` parameter of `Send`/`SendStreaming`: a plain
string or a `gollm.FunctionCallResult`.  `result` is the JSON
serialization of the `Result` map (`none` models a nil map).  Values of
any other dynamic type hit the `default` arm of `processContents` and are
rejected with an unsupported-content error; they are outside the claims in
scope and not modelled. -/
inductive GContent where
  | str (s : String)
  | funcResult (id name : String) (result : Option String)
  deriving DecidableEq, Repr

/-- Embedding of `formatToolResult` (bedrock.go 359-370); `json.Marshal`
of a result map is its pre-serialized string (marshalling a plain data map
does not fail). -/
def formatToolResult (name : String) (result : Option String) : String :=
  match result with
  | none => "Tool " ++ name ++ " completed successfully"
  | some j => j

/-- Embedding of `addToolResults` (bedrock.go 394-398). -/
def addToolResults (h : List BMessage) (toolResults : List BBlock) : List BMessage :=
  if toolResults.isEmpty then h else addMessage h .user toolResults

/-- Embedding of `processContents` (bedrock.go 318-357): splits the
contents into text fragments and tool-result blocks (in arrival order),
rejects mixing, stores tool results as one user message, and joins text
fragments with `"\n"` (`strings.Join(messages, "\n")`).  Returns the
updated history and the joined user message. -/
def processContents (h : List BMessage) (contents : List GContent) :
    Except String (List BMessage × String) :=
  let messages := contents.filterMap fun c =>
    match c with | .str s => some s | _ => none
  let toolResults := contents.filterMap fun c =>
    match c with
    | .funcResult i n r => some (BBlock.toolResult i (formatToolResult n r))
    | _ => none
  if !messages.isEmpty && !toolResults.isEmpty then
    .error "cannot mix text messages and tool results in the same call"
  else if !toolResults.isEmpty then
    .ok (addToolResults h toolResults, "")
  else if messages.isEmpty then
    .error "no valid messages provided"
  else
    .ok (h, strJoin "\n" messages)

/-- Embedding of `removeLastMessage` (bedrock.go 437-442). -/
def removeLastMessage (h : List BMessage) : List BMessage :=
  if h.isEmpty then h else h.dropLast

/-- One content block of a non-streaming `ConverseOutput` message:
text, tool use (`ToolUseId`/`Name` are `*string`; `Input` is a document
that is nil, unmarshals to a non-map value, or unmarshals to a map), or
an unknown block type. -/
inductive RespBlock where
  | text (s : String)
  | toolUse (id name : Option String) (input : Option (Option (List (String × String))))
  | other
  deriving DecidableEq, Repr

/-- Model of `types.ConverseOutput`: the expected message member or an
unexpected dynamic type. -/
inductive ConvOutput where
  | message (blocks : List RespBlock)
  | unexpected
  deriving DecidableEq, Repr

/-- Model of `bedrockChatResponse` (responses.go 9-15). -/
structure BResponse where
  content : String
  toolCalls : List FunctionCall
  usage : AWSUsagePayload
  model : String
  provider : String
  deriving DecidableEq, Repr

/-- The `response.content` that `parseConverseOutput` produces: the text
blocks joined with `"\n"`, or the fixed error text on an unexpected output
type. -/
def respContent (out : ConvOutput) : String :=
  match out with
  | .message blocks =>
    strJoin "\n" (blocks.filterMap fun b =>
      match b with | .text s => some s | _ => none)
  | .unexpected => "Error: Unable to parse response"

/-- The `response.toolCalls` that `parseConverseOutput` produces, one per
tool-use block, nil pointers defaulting to `""` and nil or non-map inputs
to the empty argument map. -/
def respToolCalls (out : ConvOutput) : List FunctionCall :=
  match out with
  | .message blocks =>
    blocks.filterMap fun b =>
      match b with
      | .toolUse tid nm inp =>
        let args : List (String × String) :=
          match inp with
          | none => []            -- nil Input
          | some none => []       -- unmarshal result is not a map
          | some (some m) => m
        some (FunctionCall.mk (tid.getD "") (nm.getD "") args)
      | _ => none
  | .unexpected => []

/-- Embedding of `parseConverseOutput` (bedrock.go 596-664). -/
def parseConverseOutput (model : String) (out : ConvOutput) : BResponse :=
  { content := respContent out, toolCalls := respToolCalls out,
    usage := .nilPayload, model := model, provider := "bedrock" }

/-- Embedding of `addAssistantResponse` (bedrock.go 400-416); the
`len(contentBlocks) > 0` guard is subsumed by `addMessage`'s own check. -/
def addAssistantResponse (h : List BMessage) (r : BResponse) : List BMessage :=
  let blocks := (if r.content == "" then [] else [BBlock.text r.content])
      ++ r.toolCalls.map createToolUseBlock
  addMessage h .assistant blocks

/-- A successful backend `Converse` call: the output union plus the
`Usage` payload attached to it. -/
structure BackendReply where
  output : ConvOutput
  usage : AWSUsagePayload
  deriving DecidableEq, Repr

/-- Embedding of `bedrockChatSession.Send` (bedrock.go 241-293),
parameterized by the outcome of the one `Converse` network call.  The
result is the updated session and the returned response or error; `none`
means the model support check diverged, so the call never returns.  The
unsupported-model error text is abbreviated (the original also prints the
supported-model list). -/
def bedrockSend (cs : BSession) (contents : List GContent)
    (backend : Except String BackendReply) :
    Option (BSession × Except String BResponse) :=
  match isModelSupported cs.model with
  | none => none
  | some false =>
    some (cs, .error ("unsupported model - only Claude and Nova models are supported: "
      ++ cs.model))
  | some true =>
    match processContents cs.history contents with
    | .error e => some (cs, .error e)
    | .ok (h1, userMessage) =>
      let h2 := if userMessage == "" then h1 else addTextMessage h1 .user userMessage
      match backend with
      | .error e =>
        some ({ cs with history := removeLastMessage h2 },
          .error ("converse API failed: " ++ e))
      | .ok reply =>
        let parsed := parseConverseOutput cs.model reply.output
        let resp := { parsed with usage := reply.usage }
        some ({ cs with history := addAssistantResponse h2 resp }, .ok resp)

/-- Embedding of `bedrockChatSession.IsRetryableError` (bedrock.go
818-838); the error is `none` for Go nil, or its message string.  The
session receiver is kept as a parameter to state that the classification
reads none of it. -/
def bedrockIsRetryableError (_cs : BSession) (err : Option String) : Bool :=
  match err with
  | none => false
  | some msg =>
    let errStr := strToLower msg
    ["throttling", "serviceunavailable", "internalservererror",
     "requesttimeout"].any fun r => strContains errStr r

/-! ## Role alternation harness (sequences of `Send` calls) -/

/-- The opposite conversation role. -/
def flipRole : Role → Role
  | .user => .assistant
  | .assistant => .user

/-- Strict user/assistant alternation starting from an expected role. -/
def altFrom : Role → List Role → Bool
  | _, [] => true
  | r, x :: xs => x == r && altFrom (flipRole r) xs

/-- Run a sequence of `Send` calls, each with its own contents and
successful backend reply; `none` as soon as one call fails (or hangs in
the support check). -/
def runSends : BSession → List (List GContent × BackendReply) → Option BSession
  | cs, [] => some cs
  | cs, (c, rep) :: ts =>
    match bedrockSend cs c (.ok rep) with
    | some (cs1, .ok _) => runSends cs1 ts
    | _ => none

/-! ## The Nirmata chat session (nirmata.go) -/

/-- Model of `nirmataMessage`: role and flat string content. -/
structure NMessage where
  role : String
  content : String
  deriving DecidableEq, Repr

/-- Model of `nirmataChat` restricted to the fields the claims read. -/
structure NChat where
  model : String
  systemPrompt : String
  history : List NMessage
  deriving DecidableEq, Repr

/-- The `contents ...any` parameter as `convertContentsToMessage` consumes
it: a plain string, an `*api.Message` of text type with string payload, an
`*api.Message` of any other type (contributes nothing but still gets a
separator), or any other value (printed with `%v`). -/
inductive NContent where
  | str (s : String)
  | apiText (s : String)
  | apiNonText
  | otherVal (repr : String)
  deriving DecidableEq, Repr

/-- Text contributed by one content value inside the loop body of
`convertContentsToMessage` (nirmata.go 319-338). -/
def writeContent : NContent → String
  | .str s => s
  | .apiText s => s
  | .apiNonText => ""
  | .otherVal r => r

/-- The loop of `convertContentsToMessage`: a single space before every
value except the first (written even when the value contributes no
text). -/
def joinedContents : List NContent → String
  | [] => ""
  | c :: rest => writeContent c ++ String.join (rest.map fun x => " " ++ writeContent x)

/-- Embedding of `convertContentsToMessage` (nirmata.go 316-344). -/
def convertContentsToMessage (contents : List NContent) : NMessage :=
  { role := "user", content := joinedContents contents }

/-- Embedding of the streaming iterator returned by
`nirmataChat.SendStreaming` (nirmata.go 278-312): the scanner's chunks are
yielded one by one while `fullContent` accumulates them; only when the
chunk list is exhausted is one assistant message appended (if the
accumulated content is nonempty).  `budget` is the number of chunks the
caller accepts; on the first refused `yield` the iterator returns with the
history untouched.  Returns the final history and the yielded chunks. -/
def nirmataStreamRun : List NMessage → String → List String → Nat →
    List NMessage × List String
  | hist, acc, [], _ =>
    (if acc == "" then hist else hist ++ [{ role := "assistant", content := acc }], [])
  | hist, acc, c :: cs, b =>
    match b with
    | 0 => (hist, [c])
    | b + 1 =>
      let r := nirmataStreamRun hist (acc ++ c) cs b
      (r.1, c :: r.2)

/-- Modelled from the spec: `DefaultIsRetryableError`, the classifier that
`nirmataChat.IsRetryableError` (nirmata.go 400-402) delegates to, is not
part of this repository's sources.  Per the spec it is a pure
classification function of the error alone: a nil error is not an error
(nothing to retry), and only the transport / backend-overload categories
are retryable. -/
def defaultIsRetryableError (err : Option String) : Bool :=
  match err with
  | none => false
  | some msg =>
    let errStr := strToLower msg
    strContains errStr "transport" || strContains errStr "overload" ||
      strContains errStr "throttl" || strContains errStr "unavailable" ||
      strContains errStr "timeout"

/-- Embedding of `nirmataChat.IsRetryableError` (nirmata.go 400-402). -/
def nirmataIsRetryableError (_c : NChat) (err : Option String) : Bool :=
  defaultIsRetryableError err

/-! ## General lemmas about the streaming aggregator -/

/-- The completed tool calls among a unit list, in order. -/
def completedOf (us : List StreamUnit) : List FunctionCall :=
  us.filterMap fun u => match u with | .completedTool c => some c | _ => none

/-- Ids of the completed-tool-call units in a list. -/
def unitCompletedIds (us : List StreamUnit) : List String :=
  us.filterMap StreamUnit.completedId

/-- Ids of the collected tool calls of a state. -/
def collectedIds (st : AggState) : List String :=
  st.collectedToolCalls.map FunctionCall.id

/-- Every tool-call id reachable from a state: the open slot, the
collected calls and history. -/
def stateToolIds (st : AggState) : List String :=
  (match st.currentToolCall with | some c => [c.id] | none => []) ++
    collectedIds st ++ histToolIds st.history

theorem histToolIds_append (h1 h2 : List BMessage) :
    histToolIds (h1 ++ h2) = histToolIds h1 ++ histToolIds h2 := by
  simp [histToolIds]

theorem stepEvent_history (st : AggState) (e : BEvent) (h : e ≠ BEvent.messageStop) :
    (stepEvent st e).1.history = st.history := by
  cases e with
  | messageStop => exact absurd rfl h
  | blockDeltaToolUse slot inp =>
    rcases hc : st.currentToolCall with _ | c <;> rcases inp with _ | s <;>
      simp [stepEvent, hc]
    rcases hj : jsonDecodeObj s <;> simp [hj]
  | blockStop slot =>
    rcases hc : st.currentToolCall with _ | c <;> simp [stepEvent, hc]
  | metadata u => rcases u with _ | t <;> simp [stepEvent]
  | _ => rfl

/-- The text contributed by a single event to `fullContent`. -/
def textOfEvent : BEvent → String
  | .blockDeltaText _ s => s
  | _ => ""

theorem stepEvent_fullContent (st : AggState) (e : BEvent) :
    (stepEvent st e).1.fullContent =
      st.fullContent ++ textOfEvent e := by
  cases e with
  | blockDeltaText slot s => simp [stepEvent, textOfEvent]
  | blockDeltaToolUse slot inp =>
    rcases hc : st.currentToolCall with _ | c <;> rcases inp with _ | s <;>
      simp [stepEvent, hc, textOfEvent]
    rcases hj : jsonDecodeObj s <;> simp [hj]
  | blockStop slot =>
    rcases hc : st.currentToolCall with _ | c <;> simp [stepEvent, hc, textOfEvent]
  | metadata u => rcases u with _ | t <;> simp [stepEvent, textOfEvent]
  | _ => simp [stepEvent, textOfEvent]

theorem stepEvent_collected (st : AggState) (e : BEvent) :
    (stepEvent st e).1.collectedToolCalls =
      st.collectedToolCalls ++ completedOf ((stepEvent st e).2.toList) := by
  cases e with
  | blockDeltaText slot s => simp [stepEvent, completedOf]
  | blockDeltaToolUse slot inp =>
    rcases hc : st.currentToolCall with _ | c <;> rcases inp with _ | s <;>
      simp [stepEvent, hc, completedOf]
    rcases hj : jsonDecodeObj s <;> simp [hj, completedOf]
  | blockStop slot =>
    rcases hc : st.currentToolCall with _ | c <;> simp [stepEvent, hc, completedOf]
  | metadata u => rcases u with _ | t <;> simp [stepEvent, completedOf]
  | _ => simp [stepEvent, completedOf]

theorem concatTexts_cons (e : BEvent) (es : List BEvent) :
    concatTexts (e :: es) = textOfEvent e ++ concatTexts es := by
  cases e <;> simp [concatTexts, textOfEvent]

theorem runAll_cons_none {st st1 : AggState} {e : BEvent} (es : List BEvent)
    (h : stepEvent st e = (st1, none)) : runAll st (e :: es) = runAll st1 es := by
  simp only [runAll, h]

theorem runAll_cons_some {st st1 : AggState} {e : BEvent} {u : StreamUnit}
    (es : List BEvent) (h : stepEvent st e = (st1, some u)) :
    runAll st (e :: es) = ((runAll st1 es).1, u :: (runAll st1 es).2) := by
  simp only [runAll, h]

theorem runAgg_cons_none {st st1 : AggState} {e : BEvent} (es : List BEvent) (b : Nat)
    (h : stepEvent st e = (st1, none)) : runAgg st (e :: es) b = runAgg st1 es b := by
  simp only [runAgg, h]

theorem runAgg_cons_some_zero {st st1 : AggState} {e : BEvent} {u : StreamUnit}
    (es : List BEvent) (h : stepEvent st e = (st1, some u)) :
    runAgg st (e :: es) 0 = ⟨st1, [u], 0, true⟩ := by
  simp only [runAgg, h]

theorem runAgg_cons_some_succ {st st1 : AggState} {e : BEvent} {u : StreamUnit}
    (es : List BEvent) (b : Nat) (h : stepEvent st e = (st1, some u)) :
    runAgg st (e :: es) (b + 1) =
      ⟨(runAgg st1 es b).state, u :: (runAgg st1 es b).units,
       (runAgg st1 es b).budget, (runAgg st1 es b).aborted⟩ := by
  simp only [runAgg, h]

theorem runAgg_history (es : List BEvent) : ∀ (st : AggState) (b : Nat),
    noMessageStop es = true → (runAgg st es b).state.history = st.history := by
  induction es with
  | nil => intro st b _; rfl
  | cons e es ih =>
    intro st b hn
    simp only [noMessageStop, List.all_cons, Bool.and_eq_true] at hn
    have hne : e ≠ BEvent.messageStop := by
      intro hcontra; subst hcontra; simp at hn
    have hns : noMessageStop es = true := hn.2
    rcases hstep : stepEvent st e with ⟨st1, u⟩
    have hh : st1.history = st.history := by
      have := stepEvent_history st e hne
      rw [hstep] at this
      exact this
    rcases u with _ | u
    · rw [runAgg_cons_none es b hstep, ih st1 b hns, hh]
    · rcases b with _ | b
      · rw [runAgg_cons_some_zero es hstep]
        exact hh
      · rw [runAgg_cons_some_succ es b hstep]
        rw [ih st1 b hns, hh]

theorem runAll_history (es : List BEvent) : ∀ (st : AggState),
    noMessageStop es = true → (runAll st es).1.history = st.history := by
  induction es with
  | nil => intro st _; rfl
  | cons e es ih =>
    intro st hn
    simp only [noMessageStop, List.all_cons, Bool.and_eq_true] at hn
    have hne : e ≠ BEvent.messageStop := by
      intro hcontra; subst hcontra; simp at hn
    rcases hstep : stepEvent st e with ⟨st1, u⟩
    have hh : st1.history = st.history := by
      have := stepEvent_history st e hne
      rw [hstep] at this
      exact this
    rcases u with _ | u
    · rw [runAll_cons_none es hstep, ih st1 hn.2, hh]
    · rw [runAll_cons_some es hstep]
      rw [ih st1 hn.2, hh]

theorem runAll_fullContent (es : List BEvent) : ∀ (st : AggState),
    (runAll st es).1.fullContent = st.fullContent ++ concatTexts es := by
  induction es with
  | nil => intro st; simp [runAll, concatTexts]
  | cons e es ih =>
    intro st
    rcases hstep : stepEvent st e with ⟨st1, u⟩
    have hc : st1.fullContent = st.fullContent ++ textOfEvent e := by
      have := stepEvent_fullContent st e
      rw [hstep] at this
      exact this
    rcases u with _ | u
    · rw [runAll_cons_none es hstep, ih st1, hc, concatTexts_cons,
        String.append_assoc]
    · rw [runAll_cons_some es hstep]
      simp only
      rw [ih st1, hc, concatTexts_cons, String.append_assoc]

theorem runAll_collected (es : List BEvent) : ∀ (st : AggState),
    (runAll st es).1.collectedToolCalls =
      st.collectedToolCalls ++ completedOf (runAll st es).2 := by
  induction es with
  | nil => intro st; simp [runAll, completedOf]
  | cons e es ih =>
    intro st
    rcases hstep : stepEvent st e with ⟨st1, u⟩
    have hc : st1.collectedToolCalls = st.collectedToolCalls ++ completedOf u.toList := by
      have := stepEvent_collected st e
      rw [hstep] at this
      exact this
    rcases u with _ | u
    · rw [runAll_cons_none es hstep, ih st1, hc]
      simp [completedOf]
    · rw [runAll_cons_some es hstep]
      simp only
      rw [ih st1, hc]
      rcases u with s | c | t <;> simp [completedOf]

theorem runAll_append (xs : List BEvent) : ∀ (ys : List BEvent) (st : AggState),
    runAll st (xs ++ ys) =
      ((runAll (runAll st xs).1 ys).1,
       (runAll st xs).2 ++ (runAll (runAll st xs).1 ys).2) := by
  induction xs with
  | nil => intro ys st; simp [runAll]
  | cons e xs ih =>
    intro ys st
    rcases hstep : stepEvent st e with ⟨st1, u⟩
    rcases u with _ | u
    · rw [List.cons_append, runAll_cons_none (xs ++ ys) hstep,
        runAll_cons_none xs hstep, ih]
    · rw [List.cons_append, runAll_cons_some (xs ++ ys) hstep,
        runAll_cons_some xs hstep, ih]
      simp

theorem runAll_units_length (es : List BEvent) : ∀ (st : AggState),
    (runAll st es).2.length ≤ es.length := by
  induction es with
  | nil => intro st; simp [runAll]
  | cons e es ih =>
    intro st
    rcases hstep : stepEvent st e with ⟨st1, u⟩
    rcases u with _ | u
    · rw [runAll_cons_none es hstep]
      exact Nat.le_succ_of_le (ih st1)
    · rw [runAll_cons_some es hstep]
      simpa using Nat.succ_le_succ (ih st1)

theorem runAgg_of_budget (es : List BEvent) : ∀ (st : AggState) (b : Nat),
    (runAll st es).2.length ≤ b →
    runAgg st es b =
      ⟨(runAll st es).1, (runAll st es).2, b - (runAll st es).2.length, false⟩ := by
  induction es with
  | nil => intro st b _; simp [runAgg, runAll]
  | cons e es ih =>
    intro st b hb
    rcases hstep : stepEvent st e with ⟨st1, u⟩
    rcases u with _ | u
    · rw [runAll_cons_none es hstep] at hb ⊢
      rw [runAgg_cons_none es b hstep, ih st1 b hb]
    · rw [runAll_cons_some es hstep] at hb ⊢
      simp only [List.length_cons] at hb
      rcases b with _ | b
      · omega
      · rw [runAgg_cons_some_succ es b hstep,
          ih st1 b (by omega)]
        simp only [List.length_cons]
        congr 1
        omega

theorem runAgg_aborted (xs : List BEvent) : ∀ (st : AggState) (b : Nat),
    b < (runAll st xs).2.length → (runAgg st xs b).aborted = true := by
  induction xs with
  | nil => intro st b h; simp [runAll] at h
  | cons e xs ih =>
    intro st b hb
    rcases hstep : stepEvent st e with ⟨st1, u⟩
    rcases u with _ | u
    · rw [runAll_cons_none xs hstep] at hb
      rw [runAgg_cons_none xs b hstep]
      exact ih st1 b hb
    · rw [runAll_cons_some xs hstep] at hb
      simp only [List.length_cons] at hb
      rcases b with _ | b
      · rw [runAgg_cons_some_zero xs hstep]
      · rw [runAgg_cons_some_succ xs b hstep]
        exact ih st1 b (by omega)

theorem runAgg_append (xs : List BEvent) : ∀ (ys : List BEvent) (st : AggState) (b : Nat),
    runAgg st (xs ++ ys) b =
      if (runAgg st xs b).aborted then runAgg st xs b
      else
        ⟨(runAgg (runAgg st xs b).state ys (runAgg st xs b).budget).state,
         (runAgg st xs b).units ++
           (runAgg (runAgg st xs b).state ys (runAgg st xs b).budget).units,
         (runAgg (runAgg st xs b).state ys (runAgg st xs b).budget).budget,
         (runAgg (runAgg st xs b).state ys (runAgg st xs b).budget).aborted⟩ := by
  induction xs with
  | nil => intro ys st b; simp [runAgg]
  | cons e xs ih =>
    intro ys st b
    rcases hstep : stepEvent st e with ⟨st1, u⟩
    rcases u with _ | u
    · rw [List.cons_append, runAgg_cons_none (xs ++ ys) b hstep,
        runAgg_cons_none xs b hstep, ih]
    · rcases b with _ | b
      · rw [List.cons_append, runAgg_cons_some_zero (xs ++ ys) hstep,
          runAgg_cons_some_zero xs hstep]
        simp
      · rw [List.cons_append, runAgg_cons_some_succ (xs ++ ys) b hstep,
          runAgg_cons_some_succ xs b hstep, ih]
        by_cases hab : (runAgg st1 xs b).aborted
        · simp [hab]
        · simp [hab]

/-- The tool id carried by an optional unit, when it is a completed call. -/
def unitIdsOpt (u : Option StreamUnit) : List String :=
  match u with
  | some (.completedTool c) => [c.id]
  | _ => []

theorem unitCompletedIds_cons (u : StreamUnit) (us : List StreamUnit) :
    unitCompletedIds (u :: us) = unitIdsOpt (some u) ++ unitCompletedIds us := by
  cases u <;> simp [unitCompletedIds, unitIdsOpt, StreamUnit.completedId]

theorem openToolIds_cons (e : BEvent) (es : List BEvent) :
    openToolIds (e :: es) = openToolIds [e] ++ openToolIds es := by
  cases e <;> simp [openToolIds]

theorem toolIds_text (r : Role) (s : String) :
    (BMessage.mk r [.text s]).toolIds = [] := by
  simp [BMessage.toolIds]

theorem toolIds_toolMsg (r : Role) (cs : List FunctionCall) :
    (BMessage.mk r (cs.map createToolUseBlock)).toolIds = cs.map FunctionCall.id := by
  simp only [BMessage.toolIds, List.filterMap_map]
  induction cs with
  | nil => rfl
  | cons c cs ih => simp [createToolUseBlock, ih]

theorem histToolIds_addTextMessage (h : List BMessage) (r : Role) (s : String) :
    histToolIds (addTextMessage h r s) = histToolIds h := by
  by_cases hs : s == ""
  · simp [addTextMessage, hs]
  · simp [addTextMessage, hs, addMessage, histToolIds_append, histToolIds,
      BMessage.toolIds]

theorem histToolIds_addToolMsg (h : List BMessage) (r : Role) (cs : List FunctionCall) :
    histToolIds (addMessage h r (cs.map createToolUseBlock)) =
      histToolIds h ++ cs.map FunctionCall.id := by
  by_cases hcs : cs = []
  · simp [hcs, addMessage, histToolIds]
  · have : (cs.map createToolUseBlock).isEmpty = false := by
      simp [List.isEmpty_iff, hcs]
    simp only [addMessage, this, Bool.false_eq_true, if_false,
      histToolIds_append]
    simp [histToolIds, toolIds_toolMsg]

theorem stepEvent_toolIds (st : AggState) (e : BEvent) (i : String)
    (hmem : i ∈ stateToolIds (stepEvent st e).1 ++ unitIdsOpt (stepEvent st e).2) :
    i ∈ stateToolIds st ++ openToolIds [e] := by
  rcases hc : st.currentToolCall with _ | c
  case none =>
    cases e with
    | blockStartToolUse slot tid nm =>
      simp only [stepEvent] at hmem
      simp only [stateToolIds, collectedIds, unitIdsOpt, openToolIds, hc,
        List.mem_append, List.mem_singleton, List.append_nil,
        List.not_mem_nil, or_false, false_or] at hmem ⊢
      tauto
    | blockDeltaToolUse slot inp =>
      rcases inp with _ | s <;>
        simpa [stepEvent, hc, unitIdsOpt, openToolIds] using hmem
    | blockStop slot =>
      simpa [stepEvent, hc, unitIdsOpt, openToolIds] using hmem
    | messageStop =>
      simp only [stepEvent] at hmem
      rcases hcoll : st.collectedToolCalls.isEmpty with _ | _ <;>
        simp only [hcoll, Bool.false_eq_true, if_false, if_true] at hmem
      · rw [show stateToolIds
            { st with history := addMessage (addTextMessage st.history .assistant
                st.fullContent) .assistant (st.collectedToolCalls.map createToolUseBlock) } =
            (match st.currentToolCall with | some c => [c.id] | none => []) ++
              collectedIds st ++ histToolIds (addMessage (addTextMessage st.history
                .assistant st.fullContent) .assistant
                (st.collectedToolCalls.map createToolUseBlock)) from rfl] at hmem
        rw [histToolIds_addToolMsg, histToolIds_addTextMessage] at hmem
        simp only [stateToolIds, collectedIds, unitIdsOpt, openToolIds, hc,
          List.mem_append, List.mem_singleton, List.append_nil,
          List.not_mem_nil, or_false, false_or] at hmem ⊢
        tauto
      · rw [show stateToolIds
            { st with history := addTextMessage st.history .assistant st.fullContent } =
            (match st.currentToolCall with | some c => [c.id] | none => []) ++
              collectedIds st ++ histToolIds (addTextMessage st.history .assistant
                st.fullContent) from rfl] at hmem
        rw [histToolIds_addTextMessage] at hmem
        simpa [stateToolIds, unitIdsOpt, openToolIds] using hmem
    | metadata u =>
      rcases u with _ | t <;> simpa [stepEvent, unitIdsOpt, openToolIds] using hmem
    | _ => simpa [stepEvent, unitIdsOpt, openToolIds] using hmem
  case some =>
    cases e with
    | blockStartToolUse slot tid nm =>
      simp only [stepEvent] at hmem
      simp only [stateToolIds, collectedIds, unitIdsOpt, openToolIds, hc,
        List.mem_append, List.mem_singleton, List.append_nil,
        List.not_mem_nil, or_false, false_or] at hmem ⊢
      tauto
    | blockDeltaToolUse slot inp =>
      rcases inp with _ | s
      · simpa [stepEvent, hc, unitIdsOpt, openToolIds] using hmem
      · simp only [stepEvent, hc] at hmem
        rcases hj : jsonDecodeObj s with _ | m <;> rw [hj] at hmem
        · simpa [stateToolIds, hc, unitIdsOpt, openToolIds] using hmem
        · simp [stateToolIds, collectedIds, unitIdsOpt, openToolIds, hc,
            List.mem_append, List.mem_map] at hmem ⊢
          tauto
    | blockStop slot =>
      simp only [stepEvent, hc] at hmem
      simp only [stateToolIds, collectedIds, unitIdsOpt, openToolIds, hc,
        List.map_append, List.map_cons, List.map_nil,
        List.mem_append, List.mem_singleton, List.append_nil,
        List.not_mem_nil, or_false, false_or] at hmem ⊢
      tauto
    | messageStop =>
      simp only [stepEvent] at hmem
      rcases hcoll : st.collectedToolCalls.isEmpty with _ | _ <;>
        simp only [hcoll, Bool.false_eq_true, if_false, if_true] at hmem
      · rw [show stateToolIds
            { st with history := addMessage (addTextMessage st.history .assistant
                st.fullContent) .assistant (st.collectedToolCalls.map createToolUseBlock) } =
            (match st.currentToolCall with | some c => [c.id] | none => []) ++
              collectedIds st ++ histToolIds (addMessage (addTextMessage st.history
                .assistant st.fullContent) .assistant
                (st.collectedToolCalls.map createToolUseBlock)) from rfl] at hmem
        rw [histToolIds_addToolMsg, histToolIds_addTextMessage] at hmem
        simp only [stateToolIds, collectedIds, unitIdsOpt, openToolIds, hc,
          List.mem_append, List.mem_singleton, List.append_nil,
          List.not_mem_nil, or_false, false_or] at hmem ⊢
        tauto
      · rw [show stateToolIds
            { st with history := addTextMessage st.history .assistant st.fullContent } =
            (match st.currentToolCall with | some c => [c.id] | none => []) ++
              collectedIds st ++ histToolIds (addTextMessage st.history .assistant
                st.fullContent) from rfl] at hmem
        rw [histToolIds_addTextMessage] at hmem
        simpa [stateToolIds, unitIdsOpt, openToolIds] using hmem
    | metadata u =>
      rcases u with _ | t <;> simpa [stepEvent, unitIdsOpt, openToolIds] using hmem
    | _ => simpa [stepEvent, unitIdsOpt, openToolIds] using hmem

theorem runAgg_toolIds (es : List BEvent) : ∀ (st : AggState) (b : Nat) (i : String),
    i ∈ stateToolIds (runAgg st es b).state ++ unitCompletedIds (runAgg st es b).units →
    i ∈ stateToolIds st ++ openToolIds es := by
  induction es with
  | nil =>
    intro st b i h
    simpa [runAgg, unitCompletedIds, openToolIds] using h
  | cons e es ih =>
    intro st b i h
    rcases hstep : stepEvent st e with ⟨st1, u⟩
    have hstep1 : ∀ j, j ∈ stateToolIds st1 ++ unitIdsOpt u →
        j ∈ stateToolIds st ++ openToolIds [e] := by
      intro j hj
      have hx := stepEvent_toolIds st e j
      rw [hstep] at hx
      exact hx hj
    rw [openToolIds_cons]
    rcases u with _ | u
    · rw [runAgg_cons_none es b hstep] at h
      have h2 := ih st1 b i h
      have h3 : i ∈ stateToolIds st1 → i ∈ stateToolIds st ++ openToolIds [e] :=
        fun hx => hstep1 i (List.mem_append.2 (Or.inl hx))
      simp only [List.mem_append] at h2 h3 ⊢
      tauto
    · rcases b with _ | b
      · rw [runAgg_cons_some_zero es hstep] at h
        have he : unitCompletedIds [u] = unitIdsOpt (some u) := by
          rw [unitCompletedIds_cons]
          simp [unitCompletedIds]
        have h1 : i ∈ stateToolIds st1 ++ unitIdsOpt (some u) := by
          rw [← he]
          exact h
        have h4 := hstep1 i h1
        simp only [List.mem_append] at h4 ⊢
        tauto
      · rw [runAgg_cons_some_succ es b hstep] at h
        simp only [unitCompletedIds_cons] at h
        have hr := ih st1 b i
        have h3 : i ∈ stateToolIds st1 → i ∈ stateToolIds st ++ openToolIds [e] :=
          fun hx => hstep1 i (List.mem_append.2 (Or.inl hx))
        have h5 : i ∈ unitIdsOpt (some u) → i ∈ stateToolIds st ++ openToolIds [e] :=
          fun hx => hstep1 i (List.mem_append.2 (Or.inr hx))
        simp only [List.mem_append] at h hr h3 h5 ⊢
        tauto

theorem stepEvent_noStop (st : AggState) (e : BEvent)
    (h : ∀ k, e ≠ BEvent.blockStop k) :
    (stepEvent st e).1.collectedToolCalls = st.collectedToolCalls ∧
    (∀ u, (stepEvent st e).2 = some u → u.completedId = none) ∧
    (∀ i, i ∈ histToolIds (stepEvent st e).1.history →
      i ∈ histToolIds st.history ∨ i ∈ collectedIds st) := by
  cases e with
  | blockStop k => exact absurd rfl (h k)
  | messageStop =>
    refine ⟨rfl, by intro u hu; simp [stepEvent] at hu, ?_⟩
    intro i hi
    simp only [stepEvent] at hi
    rcases hcoll : st.collectedToolCalls.isEmpty with _ | _ <;>
      simp only [hcoll, Bool.false_eq_true, if_false, if_true] at hi
    · rw [histToolIds_addToolMsg, histToolIds_addTextMessage] at hi
      simp only [collectedIds, List.mem_append] at hi ⊢
      tauto
    · rw [histToolIds_addTextMessage] at hi
      exact Or.inl hi
  | blockDeltaText slot s =>
    refine ⟨rfl, ?_, fun i hi => Or.inl hi⟩
    intro u hu
    simp only [stepEvent, Option.some.injEq] at hu
    rw [← hu]
    rfl
  | blockDeltaToolUse slot inp =>
    rcases hc : st.currentToolCall with _ | c <;> rcases inp with _ | s <;>
      try exact ⟨by simp [stepEvent, hc], by intro u hu; simp [stepEvent, hc] at hu,
        fun i hi => Or.inl (by simpa [stepEvent, hc] using hi)⟩
    rcases hj : jsonDecodeObj s with _ | m
    · exact ⟨by simp [stepEvent, hc, hj], by intro u hu; simp [stepEvent, hc, hj] at hu,
        fun i hi => Or.inl (by simpa [stepEvent, hc, hj] using hi)⟩
    · exact ⟨by simp [stepEvent, hc, hj], by intro u hu; simp [stepEvent, hc, hj] at hu,
        fun i hi => Or.inl (by simpa [stepEvent, hc, hj] using hi)⟩
  | metadata u =>
    rcases u with _ | t
    · exact ⟨rfl, by intro u hu; simp [stepEvent] at hu, fun i hi => Or.inl hi⟩
    · refine ⟨rfl, ?_, fun i hi => Or.inl hi⟩
      intro u hu
      simp only [stepEvent, Option.some.injEq] at hu
      rw [← hu]
      rfl
  | _ =>
    exact ⟨rfl, by intro u hu; simp [stepEvent] at hu, fun i hi => Or.inl hi⟩

theorem runAgg_noBlockStop (post : List BEvent) : ∀ (st : AggState) (b : Nat),
    noBlockStop post = true →
    (runAgg st post b).state.collectedToolCalls = st.collectedToolCalls ∧
    (∀ u ∈ (runAgg st post b).units, u.completedId = none) ∧
    (∀ i, i ∈ histToolIds (runAgg st post b).state.history →
      i ∈ histToolIds st.history ∨ i ∈ collectedIds st) := by
  induction post with
  | nil =>
    intro st b _
    exact ⟨rfl, by intro u hu; simp [runAgg] at hu, fun i hi => Or.inl hi⟩
  | cons e post ih =>
    intro st b hn
    simp only [noBlockStop, List.all_cons, Bool.and_eq_true] at hn
    have hne : ∀ k, e ≠ BEvent.blockStop k := by
      intro k hcontra
      subst hcontra
      simp at hn
    have hns : noBlockStop post = true := hn.2
    rcases hstep : stepEvent st e with ⟨st1, u⟩
    have hfacts := stepEvent_noStop st e hne
    rw [hstep] at hfacts
    obtain ⟨hcol, hunit, hhist⟩ := hfacts
    dsimp only at hcol hunit hhist
    have hcids : collectedIds st1 = collectedIds st := by
      simp only [collectedIds]
      rw [hcol]
    rcases u with _ | u
    · rw [runAgg_cons_none post b hstep]
      obtain ⟨ic, iu, ih3⟩ := ih st1 b hns
      refine ⟨by rw [ic, hcol], iu, ?_⟩
      intro i hi
      rcases ih3 i hi with hx | hx
      · exact hhist i hx
      · exact Or.inr (hcids ▸ hx)
    · rcases b with _ | b
      · rw [runAgg_cons_some_zero post hstep]
        refine ⟨hcol, ?_, hhist⟩
        intro v hv
        have hveq : v = u := List.mem_singleton.1 hv
        subst hveq
        exact hunit v rfl
      · rw [runAgg_cons_some_succ post b hstep]
        obtain ⟨ic, iu, ih3⟩ := ih st1 b hns
        refine ⟨by simp only; rw [ic, hcol], ?_, ?_⟩
        · intro v hv
          rcases List.mem_cons.1 hv with hveq | hvmem
          · subst hveq
            exact hunit v rfl
          · exact iu v hvmem
        · intro i hi
          simp only at hi
          rcases ih3 i hi with hx | hx
          · exact hhist i hx
          · exact Or.inr (hcids ▸ hx)

/-! ## Lemmas about tool-argument delta processing (for claim C2) -/

/-- Recognizer for tool-argument delta events. -/
def isToolDeltaEv : BEvent → Bool
  | .blockDeltaToolUse _ _ => true
  | _ => false

/-- True when every event in the list is a tool-argument delta. -/
def allToolDeltas (es : List BEvent) : Bool :=
  es.all isToolDeltaEv

/-- The argument map held by the open slot after a run of delta fragments:
each fragment is decoded on its own; a fragment that decodes to an object
replaces the accumulated value, any other fragment leaves it unchanged. -/
def lastParsedArgs (acc : List (String × String)) : List BEvent → List (String × String)
  | [] => acc
  | .blockDeltaToolUse _ (some s) :: es =>
    lastParsedArgs (match jsonDecodeObj s with | some m => m | none => acc) es
  | _ :: es => lastParsedArgs acc es

theorem runAll_toolDeltas (deltas : List BEvent) :
    ∀ (st : AggState) (c : FunctionCall),
    allToolDeltas deltas = true → st.currentToolCall = some c →
    runAll st deltas =
      ({ st with currentToolCall := some ({ c with args := lastParsedArgs c.args deltas }) },
       []) := by
  induction deltas with
  | nil =>
    intro st c _ hc
    simp only [runAll, lastParsedArgs]
    rw [show ({ c with args := c.args } : FunctionCall) = c from rfl, ← hc]
  | cons e deltas ih =>
    intro st c hall hc
    simp only [allToolDeltas, List.all_cons, Bool.and_eq_true] at hall
    have hall2 : allToolDeltas deltas = true := hall.2
    cases e with
    | blockDeltaToolUse slot inp =>
      rcases inp with _ | s
      · have hstep : stepEvent st (BEvent.blockDeltaToolUse slot none) = (st, none) := by
          simp [stepEvent, hc]
        rw [runAll_cons_none deltas hstep, ih st c hall2 hc]
        rfl
      · rcases hj : jsonDecodeObj s with _ | m
        · have hstep : stepEvent st (BEvent.blockDeltaToolUse slot (some s)) = (st, none) := by
            simp [stepEvent, hc, hj]
          rw [runAll_cons_none deltas hstep, ih st c hall2 hc]
          simp only [lastParsedArgs, hj]
        · have hstep : stepEvent st (BEvent.blockDeltaToolUse slot (some s)) =
              ({ st with currentToolCall := some ({ c with args := m }) }, none) := by
            simp [stepEvent, hc, hj]
          rw [runAll_cons_none deltas hstep,
            ih ({ st with currentToolCall := some ({ c with args := m }) })
              ({ c with args := m }) hall2 rfl]
          simp only [lastParsedArgs, hj]
    | _ => simp [isToolDeltaEv] at hall

/-! ## Lemmas about the Nirmata streaming loop -/

/-- Plain concatenation of the scanner's chunks. -/
def strConcat : List String → String
  | [] => ""
  | c :: cs => c ++ strConcat cs

theorem nirmataStreamRun_full (chunks : List String) :
    ∀ (hist : List NMessage) (acc : String) (b : Nat),
    chunks.length ≤ b →
    (nirmataStreamRun hist acc chunks b).1 =
      if (acc ++ strConcat chunks) == "" then hist
      else hist ++ [{ role := "assistant", content := acc ++ strConcat chunks }] := by
  induction chunks with
  | nil =>
    intro hist acc b _
    simp [nirmataStreamRun, strConcat]
  | cons c cs ih =>
    intro hist acc b hb
    rcases b with _ | b
    · simp at hb
    · simp only [nirmataStreamRun]
      rw [ih hist (acc ++ c) b (by simpa using hb)]
      simp only [strConcat, String.append_assoc]

theorem nirmataStreamRun_abandoned (chunks : List String) :
    ∀ (hist : List NMessage) (acc : String) (b : Nat),
    b < chunks.length → (nirmataStreamRun hist acc chunks b).1 = hist := by
  induction chunks with
  | nil => intro hist acc b hb; simp at hb
  | cons c cs ih =>
    intro hist acc b hb
    rcases b with _ | b
    · rfl
    · simp only [nirmataStreamRun]
      exact ih hist (acc ++ c) b (by simpa using hb)

/-! ## Lemmas about role alternation (for claim C6) -/

theorem flipRole_flipRole (r : Role) : flipRole (flipRole r) = r := by
  cases r <;> rfl

/-- The role expected after n alternating messages starting from r. -/
def roleAfter (r : Role) (n : Nat) : Role :=
  if n % 2 == 0 then r else flipRole r

theorem altFrom_append (xs : List Role) : ∀ (r : Role) (ys : List Role),
    altFrom r (xs ++ ys) = (altFrom r xs && altFrom (roleAfter r xs.length) ys) := by
  induction xs with
  | nil => intro r ys; simp [altFrom, roleAfter]
  | cons x xs ih =>
    intro r ys
    simp only [List.cons_append, altFrom, List.length_cons, List.append_eq]
    rw [ih (flipRole r) ys]
    have hra : roleAfter (flipRole r) xs.length = roleAfter r (xs.length + 1) := by
      simp only [roleAfter]
      rcases Nat.mod_two_eq_zero_or_one xs.length with h | h <;>
        simp [h, Nat.add_mod, flipRole_flipRole]
    rw [hra, Bool.and_assoc]

/-- Characterization of a successful `processContents`: either the tool
result path (one nonempty user message of tool-result blocks appended,
empty text), or the plain text path (history untouched, text joined with
newlines). -/
theorem processContents_ok (h : List BMessage) (contents : List GContent)
    (h1 : List BMessage) (m : String)
    (hp : processContents h contents = .ok (h1, m)) :
    (m = "" ∧ ∃ blocks, blocks ≠ [] ∧ h1 = h ++ [{ role := .user, content := blocks }]) ∨
    (h1 = h ∧
      m = strJoin "\n" (contents.filterMap fun c =>
        match c with | .str s => some s | _ => none) ∧
      (contents.filterMap fun c =>
        match c with
        | .funcResult i n r => some (BBlock.toolResult i (formatToolResult n r))
        | _ => none) = []) := by
  classical
  simp only [processContents] at hp
  set messages := contents.filterMap fun c =>
    match c with | .str s => some s | _ => none with hmsg
  set toolResults := contents.filterMap fun c =>
    match c with
    | .funcResult i n r => some (BBlock.toolResult i (formatToolResult n r))
    | _ => none with htr
  by_cases h1c : (!messages.isEmpty && !toolResults.isEmpty) = true
  · rw [if_pos h1c] at hp
    cases hp
  · rw [if_neg h1c] at hp
    by_cases h2c : (!toolResults.isEmpty) = true
    · rw [if_pos h2c] at hp
      left
      have htrne : toolResults ≠ [] := by
        simpa [List.isEmpty_iff] using h2c
      have : addToolResults h toolResults = h ++ [{ role := .user, content := toolResults }] := by
        simp [addToolResults, List.isEmpty_iff, htrne, addMessage]
      rw [this] at hp
      obtain ⟨hh, hm⟩ := Prod.mk.injEq .. ▸ (Except.ok.injEq .. ▸ hp)
      exact ⟨hm.symm, toolResults, htrne, hh.symm⟩
    · rw [if_neg h2c] at hp
      by_cases h3c : messages.isEmpty = true
      · rw [if_pos h3c] at hp
        cases hp
      · rw [if_neg h3c] at hp
        right
        obtain ⟨hh, hm⟩ := Prod.mk.injEq .. ▸ (Except.ok.injEq .. ▸ hp)
        have htre : toolResults = [] := by
          rcases htre0 : toolResults with _ | ⟨x, xs⟩
          · rfl
          · rw [htre0] at h2c
            simp at h2c
        exact ⟨hh.symm, hm.symm, htre⟩

theorem addTextMessage_ne (h : List BMessage) (r : Role) (s : String) (hs : s ≠ "") :
    addTextMessage h r s = h ++ [{ role := r, content := [.text s] }] := by
  simp [addTextMessage, hs, addMessage]

/-- A nonempty assistant response is appended as exactly one assistant
message. -/
theorem addAssistantResponse_eq (h : List BMessage) (r : BResponse)
    (hne : r.content ≠ "" ∨ r.toolCalls ≠ []) :
    ∃ blocks, blocks ≠ [] ∧
      addAssistantResponse h r = h ++ [{ role := .assistant, content := blocks }] := by
  refine ⟨(if r.content == "" then [] else [BBlock.text r.content]) ++
    r.toolCalls.map createToolUseBlock, ?_, ?_⟩
  · rcases hne with hc | ht
    · simp [hc]
    · have : r.toolCalls.map createToolUseBlock ≠ [] := by
        simpa using ht
      intro habs
      exact this (List.append_eq_nil.1 habs).2
  · have hbne : ((if r.content == "" then [] else [BBlock.text r.content]) ++
        r.toolCalls.map createToolUseBlock).isEmpty = false := by
      rcases hne with hc | ht
      · simp [hc]
      · simp [List.isEmpty_iff, ht]
    simp only [addAssistantResponse, addMessage, hbne, Bool.false_eq_true, if_false]

/-- A turn after which the step lemma applies: the request appends a user
message (nonempty joined text or at least one tool result), and the
parsed backend response is nonempty (text or tool calls). -/
def goodTurn (t : List GContent × BackendReply) : Prop :=
  (strJoin "\n" (t.1.filterMap fun c =>
      match c with | .str s => some s | _ => none) ≠ "" ∨
    (t.1.filterMap fun c =>
      match c with
      | .funcResult i n r => some (BBlock.toolResult i (formatToolResult n r))
      | _ => none) ≠ []) ∧
  (respContent t.2.output ≠ "" ∨ respToolCalls t.2.output ≠ [])

/-- A successful `Send` on a good turn appends exactly one user message
followed by one assistant message, and keeps the model. -/
theorem bedrockSend_success (cs : BSession) (contents : List GContent)
    (rep : BackendReply) (cs1 : BSession) (r : BResponse)
    (hgood : goodTurn (contents, rep))
    (hsend : bedrockSend cs contents (.ok rep) = some (cs1, .ok r)) :
    cs1.model = cs.model ∧
    ∃ um am : BMessage, um.role = .user ∧ am.role = .assistant ∧
      cs1.history = cs.history ++ [um, am] := by
  rcases hm : isModelSupported cs.model with _ | b
  · rw [bedrockSend, hm] at hsend
    cases hsend
  · rcases b with _ | _
    · rw [bedrockSend, hm] at hsend
      simp at hsend
    · rcases hp : processContents cs.history contents with e | ⟨h1, m⟩
      · rw [bedrockSend, hm, hp] at hsend
        simp at hsend
      · rw [bedrockSend, hm, hp] at hsend
        simp only [Option.some.injEq, Prod.mk.injEq, Except.ok.injEq] at hsend
        obtain ⟨hcs1, hr⟩ := hsend
        rcases processContents_ok cs.history contents h1 m hp with
          ⟨hm0, blocks, hbne, hh1⟩ | ⟨hh1, hmjoin, htre⟩
        · -- tool-result path: user message already appended by processContents
          subst hm0
          obtain ⟨ablocks, habne, haeq⟩ := addAssistantResponse_eq h1
            ⟨(parseConverseOutput cs.model rep.output).content,
             (parseConverseOutput cs.model rep.output).toolCalls, rep.usage,
             (parseConverseOutput cs.model rep.output).model,
             (parseConverseOutput cs.model rep.output).provider⟩
            (by exact hgood.2)
          refine ⟨by rw [← hcs1], { role := .user, content := blocks },
            { role := .assistant, content := ablocks }, rfl, rfl, ?_⟩
          rw [← hcs1]
          simp only
          have hif : (if ("" == "") = true then h1 else addTextMessage h1 Role.user "") =
              h1 := rfl
          rw [hif, haeq, hh1]
          simp
        · -- plain text path: the joined text is nonempty
          have hmne : m ≠ "" := by
            rcases hgood.1 with hj | ht
            · rw [hmjoin]; exact hj
            · exact absurd htre ht
          obtain ⟨ablocks, habne, haeq⟩ := addAssistantResponse_eq
            (addTextMessage h1 .user m)
            ⟨(parseConverseOutput cs.model rep.output).content,
             (parseConverseOutput cs.model rep.output).toolCalls, rep.usage,
             (parseConverseOutput cs.model rep.output).model,
             (parseConverseOutput cs.model rep.output).provider⟩
            (by exact hgood.2)
          refine ⟨by rw [← hcs1], { role := .user, content := [.text m] },
            { role := .assistant, content := ablocks }, rfl, rfl, ?_⟩
          rw [← hcs1]
          simp only
          rw [if_neg (by simpa using hmne), haeq,
            addTextMessage_ne h1 .user m hmne, hh1]
          simp

/-- Invariant propagation over a run of successful good `Send` turns. -/
theorem runSends_alternation_aux (turns : List (List GContent × BackendReply)) :
    ∀ (cs csf : BSession),
    (∀ t ∈ turns, goodTurn t) →
    altFrom .user (cs.history.map (fun msg => msg.role)) = true →
    cs.history.length % 2 = 0 →
    runSends cs turns = some csf →
    altFrom .user (csf.history.map (fun msg => msg.role)) = true ∧
      csf.history.length % 2 = 0 := by
  induction turns with
  | nil =>
    intro cs csf _ halt hev hrun
    simp only [runSends, Option.some.injEq] at hrun
    rw [← hrun]
    exact ⟨halt, hev⟩
  | cons t ts ih =>
    intro cs csf hgoodall halt hev hrun
    rcases t with ⟨c, rep⟩
    simp only [runSends] at hrun
    rcases hsend : bedrockSend cs c (.ok rep) with _ | ⟨cs1, res⟩
    · rw [hsend] at hrun
      simp at hrun
    · rw [hsend] at hrun
      rcases res with e | r
      · simp at hrun
      · obtain ⟨-, um, am, hur, har, hh⟩ := bedrockSend_success cs c rep cs1 r
          (hgoodall (c, rep) (by simp)) hsend
        have halt1 : altFrom .user (cs1.history.map (fun msg => msg.role)) = true := by
          rw [hh, List.map_append, altFrom_append]
          have hre : roleAfter Role.user (cs.history.map (fun msg => msg.role)).length =
              Role.user := by
            simp [roleAfter, List.length_map, hev]
          rw [hre]
          simp [altFrom, halt, hur, har, flipRole]
        have hev1 : cs1.history.length % 2 = 0 := by
          rw [hh]
          simp [List.length_append]
          omega
        exact ih cs1 csf (fun t ht => hgoodall t (by simp [ht])) halt1 hev1 hrun

/-! ## Further helper lemmas for the claims -/

theorem filterMap_strs (frags : List String) :
    (frags.map GContent.str).filterMap (fun c =>
      match c with | .str s => some s | _ => none) = frags := by
  induction frags with
  | nil => rfl
  | cons f frags ih => simp [ih]

theorem filterMap_strs_tools (frags : List String) :
    (frags.map GContent.str).filterMap (fun c =>
      match c with
      | .funcResult i n r => some (BBlock.toolResult i (formatToolResult n r))
      | _ => none) = [] := by
  induction frags with
  | nil => rfl
  | cons f frags ih => simp [ih]

theorem foldl_append_shift (xs : List String) : ∀ init : String,
    xs.foldl (fun r s => r ++ s) init = init ++ xs.foldl (fun r s => r ++ s) "" := by
  induction xs with
  | nil => intro init; simp
  | cons x xs ih =>
    intro init
    simp only [List.foldl_cons]
    rw [ih (init ++ x), ih ("" ++ x)]
    simp [String.append_assoc]

theorem strJoin_cons_eq (a : String) (l : List String) :
    String.join (a :: l) = a ++ String.join l := by
  show List.foldl (fun r s => r ++ s) ("" ++ a) l = a ++ List.foldl (fun r s => r ++ s) "" l
  rw [foldl_append_shift l ("" ++ a)]
  rfl

theorem join_spaced (l : List String) :
    String.join (l.map fun s => " " ++ s) =
      (if l.isEmpty then "" else " " ++ strJoin " " l) := by
  induction l with
  | nil => rfl
  | cons a l ih =>
    rw [List.map_cons, strJoin_cons_eq]
    rcases l with _ | ⟨b, t⟩
    · show " " ++ a ++ String.join [] = " " ++ a
      rw [show String.join [] = "" from rfl, String.append_empty]
    · rw [ih]
      simp only [List.isEmpty_cons, Bool.false_eq_true, if_false]
      rw [show strJoin " " (a :: b :: t) = a ++ " " ++ strJoin " " (b :: t) from rfl]
      simp [String.append_assoc]

theorem joinedContents_strs (frags : List String) :
    joinedContents (frags.map NContent.str) = strJoin " " frags := by
  rcases frags with _ | ⟨f, rest⟩
  · rfl
  · show f ++ String.join ((rest.map NContent.str).map fun x => " " ++ writeContent x) =
      strJoin " " (f :: rest)
    rw [List.map_map,
      show ((fun x => " " ++ writeContent x) ∘ NContent.str) = (fun s => " " ++ s) from rfl,
      join_spaced rest]
    rcases rest with _ | ⟨b, t⟩
    · simp [strJoin]
    · simp only [List.isEmpty_cons, Bool.false_eq_true, if_false]
      rw [show strJoin " " (f :: b :: t) = f ++ " " ++ strJoin " " (b :: t) from rfl]
      simp [String.append_assoc]

/-! ## The claims -/

/-- C8: for every raw usage payload, extraction of a nil or unrecognized
payload yields absent (`none`) and never an error (the embedding is a
total function), while a recognized `*types.TokenUsage` payload yields a
`Usage` record carrying the payload's input/output/total token counts
(nil pointers read as 0) together with the given model and provider. -/
theorem claim8_usage_extraction (model provider : String) :
    convertAWSUsage .nilPayload model provider = none ∧
    convertAWSUsage .unrecognized model provider = none ∧
    ∀ i o t : Option Int,
      convertAWSUsage (.token ⟨i, o, t⟩) model provider =
        some ⟨i.getD 0, o.getD 0, t.getD 0, model, provider⟩ :=
  ⟨rfl, rfl, fun _ _ _ => rfl⟩

/-- C9: error retryability classification is a pure function of the error
alone: it reads no session state (two sessions in arbitrary states
classify identically), two calls on the same error agree, and a nil error
is not retryable.  This holds for the Bedrock session's classifier and for
the Nirmata session's (which delegates to the spec-modelled
`DefaultIsRetryableError`). -/
theorem claim9_retryable_pure (cs1 cs2 : BSession) (n1 n2 : NChat)
    (err : Option String) :
    bedrockIsRetryableError cs1 err = bedrockIsRetryableError cs2 err ∧
    bedrockIsRetryableError cs1 err = bedrockIsRetryableError cs1 err ∧
    nirmataIsRetryableError n1 err = nirmataIsRetryableError n2 err ∧
    bedrockIsRetryableError cs1 none = false ∧
    nirmataIsRetryableError n1 none = false :=
  ⟨rfl, rfl, rfl, rfl, rfl⟩

/-- C10: the claim says `StartChat` always returns a session and never
fails, silently substituting the default model for an unsupported one.
The fallback behavior is real (second and third conjuncts), but the claim
fails on the code: `isModelSupported` recurses on itself forever for any
model string whose last `/`-segment contains both `arn:aws:bedrock` and
`foundation-model` but not `inference-profile` (e.g.
`arn:aws:bedrock-foundation-model`), so `StartChat` on such a string never
returns (first conjunct: the support check returns at no recursion
depth). -/
theorem claim10_startchat_divergence :
    isModelSupportedLoops "arn:aws:bedrock-foundation-model" ∧
    bedrockStartChat { model := "us.anthropic.claude-sonnet-4-20250514-v1:0" }
      "prompt" "gpt-4" =
      some { model := "us.anthropic.claude-sonnet-4-20250514-v1:0",
             systemPrompt := "prompt", history := [] } ∧
    bedrockStartChat { model := "us.anthropic.claude-sonnet-4-20250514-v1:0" }
      "prompt" "us.amazon.nova-pro-v1:0" =
      some { model := "us.amazon.nova-pro-v1:0",
             systemPrompt := "prompt", history := [] } := by
  refine ⟨?_, by decide, by decide⟩
  intro fuel
  induction fuel with
  | zero => rfl
  | succ k ih =>
    have hstep : isModelSupportedF (k + 1) "arn:aws:bedrock-foundation-model" =
        isModelSupportedF k "arn:aws:bedrock-foundation-model" := rfl
    rw [hstep]
    exact ih

/-- C4: a `Send` whose content list mixes a plain string with a tool
result returns the mixing usage error at once, for every possible backend
outcome (hence without any backend invocation), and returns the session
unchanged. -/
theorem claim4_mix_rejected (cs : BSession) (contents : List GContent)
    (hm : isModelSupported cs.model = some true)
    (hs : ∃ s, GContent.str s ∈ contents)
    (ht : ∃ i n r, GContent.funcResult i n r ∈ contents) :
    ∀ backend : Except String BackendReply,
      bedrockSend cs contents backend =
        some (cs, .error "cannot mix text messages and tool results in the same call") := by
  intro backend
  obtain ⟨s, hsmem⟩ := hs
  obtain ⟨i, n, r0, htmem⟩ := ht
  have hmsgs : (contents.filterMap fun c =>
      match c with | .str s => some s | _ => none) ≠ [] :=
    List.ne_nil_of_mem (List.mem_filterMap.2 ⟨.str s, hsmem, rfl⟩)
  have htrs : (contents.filterMap fun c =>
      match c with
      | .funcResult i n r => some (BBlock.toolResult i (formatToolResult n r))
      | _ => none) ≠ [] :=
    List.ne_nil_of_mem (List.mem_filterMap.2 ⟨.funcResult i n r0, htmem, rfl⟩)
  have hb1 : (contents.filterMap fun c =>
      match c with | .str s => some s | _ => none).isEmpty = false := by
    rcases hmm : (contents.filterMap fun c =>
        match c with | .str s => some s | _ => none) with _ | ⟨x, xs⟩
    · exact absurd hmm hmsgs
    · rw [hmm]
      rfl
  have hb2 : (contents.filterMap fun c =>
      match c with
      | .funcResult i n r => some (BBlock.toolResult i (formatToolResult n r))
      | _ => none).isEmpty = false := by
    rcases hmm : (contents.filterMap fun c =>
        match c with
        | .funcResult i n r => some (BBlock.toolResult i (formatToolResult n r))
        | _ => none) with _ | ⟨x, xs⟩
    · exact absurd hmm htrs
    · rw [hmm]
      rfl
  have hproc : processContents cs.history contents =
      .error "cannot mix text messages and tool results in the same call" := by
    simp only [processContents, hb1, hb2]
    rfl
  rw [bedrockSend, hm, hproc]

/-- C4 witness: a concrete mixed call errors identically under a failing
and under a succeeding backend, leaving the session untouched. -/
theorem claim4_witness :
    bedrockSend ⟨"us.amazon.nova-pro-v1:0", "", []⟩
        [GContent.str "hello", GContent.funcResult "t1" "kubectl" none]
        (.error "network down") =
      some (⟨"us.amazon.nova-pro-v1:0", "", []⟩,
        .error "cannot mix text messages and tool results in the same call") ∧
    bedrockSend ⟨"us.amazon.nova-pro-v1:0", "", []⟩
        [GContent.str "hello", GContent.funcResult "t1" "kubectl" none]
        (.ok ⟨.message [.text "4"], .nilPayload⟩) =
      some (⟨"us.amazon.nova-pro-v1:0", "", []⟩,
        .error "cannot mix text messages and tool results in the same call") :=
  ⟨claim4_mix_rejected ⟨"us.amazon.nova-pro-v1:0", "", []⟩
      [GContent.str "hello", GContent.funcResult "t1" "kubectl" none]
      (by decide) ⟨"hello", by decide⟩ ⟨"t1", "kubectl", none, by decide⟩
      (.error "network down"),
   claim4_mix_rejected ⟨"us.amazon.nova-pro-v1:0", "", []⟩
      [GContent.str "hello", GContent.funcResult "t1" "kubectl" none]
      (by decide) ⟨"hello", by decide⟩ ⟨"t1", "kubectl", none, by decide⟩
      (.ok ⟨.message [.text "4"], .nilPayload⟩)⟩

/-- C7 counterexample: the Bedrock session joins two plain text fragments
with a newline, not with the single space the claim requires: processing
`["a", "b"]` yields the user message `"a\nb"`, which differs from
`"a b"`. -/
theorem claim7_cex :
    processContents [] [GContent.str "a", GContent.str "b"] = .ok ([], "a\nb") ∧
    ("a\nb" : String) ≠ "a b" := by
  exact ⟨by decide, by decide⟩

/-- C7 (amended): for every `Send`/`SendStreaming` content list of two or
more plain text fragments, the fragments are concatenated into one user
text message — with single-space separators in the Nirmata session
(`convertContentsToMessage`), but with newline separators in the Bedrock
session (`processContents`). -/
theorem claim7_fragment_join (frags : List String) (h : List BMessage)
    (hne : frags ≠ []) :
    convertContentsToMessage (frags.map NContent.str) =
      { role := "user", content := strJoin " " frags } ∧
    processContents h (frags.map GContent.str) = .ok (h, strJoin "\n" frags) := by
  constructor
  · simp only [convertContentsToMessage, joinedContents_strs]
  · have hb : frags.isEmpty = false := by
      rcases frags with _ | ⟨x, xs⟩
      · exact absurd rfl hne
      · rfl
    simp only [processContents, filterMap_strs, filterMap_strs_tools, hb,
      List.isEmpty_nil, Bool.not_false, Bool.not_true, Bool.and_false,
      Bool.false_eq_true, if_false]

/-- C7 witness: two concrete fragments joined by each session. -/
theorem claim7_witness :
    convertContentsToMessage [NContent.str "a", NContent.str "b"] =
      { role := "user", content := "a b" } ∧
    processContents [] [GContent.str "a", GContent.str "b"] = .ok ([], "a\nb") :=
  claim7_fragment_join ["a", "b"] [] (by decide)

/-- C3 counterexample: a `Send` whose contents are a single empty string
appends no user message (the empty text is skipped) but still pops the
session's previous last message when the backend fails: on a session with
one message in history, the failing call returns a session with zero
messages, so `len(history)` shrinks instead of being preserved. -/
theorem claim3_cex :
    bedrockSend
      { model := "us.anthropic.claude-sonnet-4-20250514-v1:0", systemPrompt := "",
        history := [{ role := .user, content := [.text "old"] }] }
      [GContent.str ""] (.error "boom") =
      some ({ model := "us.anthropic.claude-sonnet-4-20250514-v1:0", systemPrompt := "",
              history := [] }, .error "converse API failed: boom") ∧
    ([] : List BMessage).length ≠
      [({ role := .user, content := [.text "old"] } : BMessage)].length :=
  ⟨by decide, by decide⟩

/-- C3 (amended): for every `Send` call whose backend invocation fails and
whose processed contents appended a message (nonempty joined text, or tool
results — which append exactly one user message), the call surfaces the
wrapped backend error and `len(history)` after equals `len(history)`
before.  (Without that proviso the claim fails: see the counterexample,
where an empty processed text appends nothing yet one message is still
removed.) -/
theorem claim3_rollback (cs : BSession) (contents : List GContent)
    (h1 : List BMessage) (m e : String)
    (hm : isModelSupported cs.model = some true)
    (hp : processContents cs.history contents = .ok (h1, m))
    (happend : m ≠ "" ∨ h1.length = cs.history.length + 1) :
    ∃ cs2, bedrockSend cs contents (.error e) =
      some (cs2, .error ("converse API failed: " ++ e)) ∧
      cs2.history.length = cs.history.length := by
  rw [bedrockSend, hm, hp]
  refine ⟨_, rfl, ?_⟩
  simp only
  rcases processContents_ok cs.history contents h1 m hp with
    ⟨hm0, blocks, hbne, hh1⟩ | ⟨hh1, hmj, -⟩
  · subst hm0
    have hif : (if ("" == "") = true then h1 else addTextMessage h1 Role.user "") = h1 := rfl
    rw [hif, hh1]
    have hrm : removeLastMessage
        (cs.history ++ [{ role := Role.user, content := blocks }]) = cs.history := by
      simp [removeLastMessage, List.dropLast_concat]
    rw [hrm]
  · by_cases hme : m = ""
    · subst hme
      rcases happend with hc | hc
      · exact absurd rfl hc
      · rw [hh1] at hc
        omega
    · rw [if_neg (by simpa using hme), addTextMessage_ne h1 .user m hme, hh1]
      have hrm : removeLastMessage
          (cs.history ++ [{ role := Role.user, content := [BBlock.text m] }]) = cs.history := by
        simp [removeLastMessage, List.dropLast_concat]
      rw [hrm]

/-- C3 witness: a concrete failing `Send` with nonempty text rolls the
history back to its starting length. -/
theorem claim3_witness :
    ∃ cs2, bedrockSend ⟨"us.amazon.nova-pro-v1:0", "", []⟩ [GContent.str "hi"]
        (.error "x") = some (cs2, .error ("converse API failed: " ++ "x")) ∧
      cs2.history.length = (⟨"us.amazon.nova-pro-v1:0", "", []⟩ : BSession).history.length :=
  claim3_rollback ⟨"us.amazon.nova-pro-v1:0", "", []⟩ [GContent.str "hi"] [] "hi" "x"
    (by decide) (by decide) (Or.inl (by decide))

/-- C1 counterexample: draining a streaming turn that carries both text
and a completed tool call to exhaustion commits TWO assistant messages
(one holding the text block, a second holding the tool-call block), not
the single assistant message with a text block followed by tool-call
blocks that the claim requires. -/
theorem claim1_cex :
    (runAgg (initAgg [])
      [BEvent.messageStart, BEvent.blockDeltaText 0 "Hi",
       BEvent.blockStartToolUse 1 (some "t1") (some "kubectl"),
       BEvent.blockStop 1, BEvent.messageStop,
       BEvent.metadata (some ⟨some 5, some 2, some 7⟩)] 6).state.history =
      [{ role := .assistant, content := [.text "Hi"] },
       { role := .assistant, content := [.toolUse "t1" "kubectl" []] }] ∧
    (2 : Nat) ≠ 1 :=
  ⟨by decide, by decide⟩

/-- C1 (amended): in the Bedrock session, the history commit happens when
the `messageStop` event is processed, and it appends up to two assistant
messages: one text message holding the concatenation of all streamed text
(if nonempty), then a separate message holding one tool-use block per
completed-tool-call unit, in emission order (if any).  Abandoning the
sequence before all pre-`messageStop` units are drained appends nothing.
In the Nirmata session, draining to exhaustion appends exactly one
assistant message holding the concatenated chunks (if nonempty), and
abandoning before exhaustion appends nothing. -/
theorem claim1_streaming_commit (h0 : List BMessage) (pre post : List BEvent)
    (bF bA : Nat) (nh : List NMessage) (chunks : List String) (nbF nbA : Nat)
    (hpre : noMessageStop pre = true) (hpost : noMessageStop post = true)
    (hbF : (pre ++ BEvent.messageStop :: post).length ≤ bF)
    (hbA : bA < (runAll (initAgg h0) pre).2.length)
    (hnbF : chunks.length ≤ nbF) (hnbA : nbA < chunks.length) :
    (runAgg (initAgg h0) (pre ++ BEvent.messageStop :: post) bF).state.history =
      (h0 ++ (if concatTexts pre == "" then []
          else [{ role := Role.assistant, content := [BBlock.text (concatTexts pre)] }])) ++
        (if (completedOf (runAll (initAgg h0) pre).2).isEmpty then []
          else [{ role := Role.assistant,
                  content := (completedOf (runAll (initAgg h0) pre).2).map createToolUseBlock }]) ∧
    (runAgg (initAgg h0) (pre ++ BEvent.messageStop :: post) bA).state.history = h0 ∧
    (nirmataStreamRun nh "" chunks nbF).1 =
      (if strConcat chunks == "" then nh
       else nh ++ [{ role := "assistant", content := strConcat chunks }]) ∧
    (nirmataStreamRun nh "" chunks nbA).1 = nh := by
  refine ⟨?_, ?_, ?_, ?_⟩
  · have hlen1 : (runAll (initAgg h0) (pre ++ BEvent.messageStop :: post)).2.length ≤ bF :=
      le_trans (runAll_units_length _ _) hbF
    rw [runAgg_of_budget _ _ _ hlen1]
    simp only
    rw [runAll_append pre (BEvent.messageStop :: post) (initAgg h0)]
    simp only
    have hh : (runAll (initAgg h0) pre).1.history = h0 := runAll_history pre _ hpre
    have hfc : (runAll (initAgg h0) pre).1.fullContent = concatTexts pre :=
      runAll_fullContent pre (initAgg h0)
    have hcoll : (runAll (initAgg h0) pre).1.collectedToolCalls =
        completedOf (runAll (initAgg h0) pre).2 :=
      runAll_collected pre (initAgg h0)
    set st1 := (runAll (initAgg h0) pre).1 with hst1
    have hstep : stepEvent st1 BEvent.messageStop =
        ({ st1 with
            history :=
              if st1.collectedToolCalls.isEmpty then
                addTextMessage st1.history .assistant st1.fullContent
              else
                addMessage (addTextMessage st1.history .assistant st1.fullContent)
                  .assistant (st1.collectedToolCalls.map createToolUseBlock) },
         none) := rfl
    rw [runAll_cons_none post hstep, runAll_history post _ hpost]
    simp only
    rw [hh, hfc, hcoll]
    rcases hC0 : completedOf (runAll (initAgg h0) pre).2 with _ | ⟨c0, crest⟩ <;>
      by_cases hT : (concatTexts pre == "") = true <;>
      simp [addTextMessage, addMessage, hT]
  · rw [runAgg_append pre (BEvent.messageStop :: post) (initAgg h0) bA,
      if_pos (runAgg_aborted pre (initAgg h0) bA hbA)]
    exact runAgg_history pre (initAgg h0) bA hpre
  · exact nirmataStreamRun_full chunks nh "" nbF hnbF
  · exact nirmataStreamRun_abandoned chunks nh "" nbA hnbA

/-- C1 witness: a concrete turn with text "Hi" and one tool call commits
exactly the two assistant messages when fully drained and nothing when
abandoned after no unit; a Nirmata stream of chunks "Hel", "lo" commits
one assistant message "Hello" when drained and nothing when abandoned. -/
theorem claim1_witness :
    (runAgg (initAgg [])
      ([BEvent.messageStart, BEvent.blockDeltaText 0 "Hi",
        BEvent.blockStartToolUse 1 (some "t1") (some "kubectl"), BEvent.blockStop 1] ++
        BEvent.messageStop :: [BEvent.metadata (some ⟨some 5, some 2, some 7⟩)]) 6).state.history =
      ([] ++ (if concatTexts [BEvent.messageStart, BEvent.blockDeltaText 0 "Hi",
          BEvent.blockStartToolUse 1 (some "t1") (some "kubectl"), BEvent.blockStop 1] == ""
          then []
          else [{ role := Role.assistant, content := [BBlock.text (concatTexts
            [BEvent.messageStart, BEvent.blockDeltaText 0 "Hi",
             BEvent.blockStartToolUse 1 (some "t1") (some "kubectl"),
             BEvent.blockStop 1])] }])) ++
        (if (completedOf (runAll (initAgg [])
            [BEvent.messageStart, BEvent.blockDeltaText 0 "Hi",
             BEvent.blockStartToolUse 1 (some "t1") (some "kubectl"),
             BEvent.blockStop 1]).2).isEmpty then []
          else [{ role := Role.assistant,
                  content := (completedOf (runAll (initAgg [])
                    [BEvent.messageStart, BEvent.blockDeltaText 0 "Hi",
                     BEvent.blockStartToolUse 1 (some "t1") (some "kubectl"),
                     BEvent.blockStop 1]).2).map createToolUseBlock }]) ∧
    (runAgg (initAgg [])
      ([BEvent.messageStart, BEvent.blockDeltaText 0 "Hi",
        BEvent.blockStartToolUse 1 (some "t1") (some "kubectl"), BEvent.blockStop 1] ++
        BEvent.messageStop :: [BEvent.metadata (some ⟨some 5, some 2, some 7⟩)]) 0).state.history = [] ∧
    (nirmataStreamRun [] "" ["Hel", "lo"] 2).1 =
      (if strConcat ["Hel", "lo"] == "" then ([] : List NMessage)
       else [] ++ [{ role := "assistant", content := strConcat ["Hel", "lo"] }]) ∧
    (nirmataStreamRun [] "" ["Hel", "lo"] 0).1 = [] :=
  claim1_streaming_commit [] _ _ 6 0 [] ["Hel", "lo"] 2 0
    (by decide) (by decide) (by decide) (by decide) (by decide) (by decide)

/-- C2 counterexample: the two argument fragments of the claim's scenario
are each parsed on arrival and each fails alone, so the slot closes with
EMPTY arguments: exactly one completed tool call is emitted, but with
arguments {} rather than the claimed {"command": "get pods"} (the code
never concatenates fragments into an accumulator). -/
theorem claim2_cex :
    (runAll (initAgg [])
      [BEvent.blockStartToolUse 0 (some "t1") (some "kubectl"),
       BEvent.blockDeltaToolUse 0 (some "\x7b\"comman"),
       BEvent.blockDeltaToolUse 0 (some "d\":\"get pods\"\x7d"),
       BEvent.blockStop 0, BEvent.messageStop]).2 =
      [StreamUnit.completedTool ⟨"t1", "kubectl", []⟩] ∧
    ¬ (runAll (initAgg [])
      [BEvent.blockStartToolUse 0 (some "t1") (some "kubectl"),
       BEvent.blockDeltaToolUse 0 (some "\x7b\"comman"),
       BEvent.blockDeltaToolUse 0 (some "d\":\"get pods\"\x7d"),
       BEvent.blockStop 0, BEvent.messageStop]).2 =
      [StreamUnit.completedTool ⟨"t1", "kubectl", [("command", "get pods")]⟩] :=
  ⟨by decide, by decide⟩

/-- C2 (amended): argument delta fragments are NOT accumulated: each
fragment is decoded independently on arrival; a fragment that alone
decodes to a JSON object replaces the slot's arguments and any other
fragment is ignored.  When the slot closes, exactly one completed
tool call is emitted, carrying the slot's id and name and the arguments
of the last fragment that decoded (empty if none did). -/
theorem claim2_fragment_handling (st : AggState) (slot slot2 : Nat)
    (tid nm : Option String) (deltas : List BEvent)
    (hall : allToolDeltas deltas = true) :
    runAll st (BEvent.blockStartToolUse slot tid nm ::
        (deltas ++ [BEvent.blockStop slot2])) =
      ({ st with currentToolCall := none,
                 collectedToolCalls := st.collectedToolCalls ++
                   [⟨tid.getD "", nm.getD "", lastParsedArgs [] deltas⟩] },
       [StreamUnit.completedTool ⟨tid.getD "", nm.getD "", lastParsedArgs [] deltas⟩]) := by
  have hstep1 : stepEvent st (BEvent.blockStartToolUse slot tid nm) =
      ({ st with currentToolCall := some ⟨tid.getD "", nm.getD "", []⟩ }, none) := rfl
  rw [runAll_cons_none _ hstep1, runAll_append deltas [BEvent.blockStop slot2] _,
    runAll_toolDeltas deltas _ ⟨tid.getD "", nm.getD "", []⟩ hall rfl]
  simp only
  have hstep2 : stepEvent
      { st with currentToolCall := some ⟨tid.getD "", nm.getD "",
                  lastParsedArgs [] deltas⟩ }
      (BEvent.blockStop slot2) =
      ({ st with currentToolCall := none,
                 collectedToolCalls := st.collectedToolCalls ++
                   [⟨tid.getD "", nm.getD "", lastParsedArgs [] deltas⟩] },
       some (.completedTool ⟨tid.getD "", nm.getD "", lastParsedArgs [] deltas⟩)) := rfl
  rw [runAll_cons_some [] hstep2]
  simp [runAll]

/-- C2 witness: the claim's concrete scenario run through the amended
statement — the two fragments decode to nothing, so the single emitted
completed tool call carries empty arguments. -/
theorem claim2_witness :
    runAll (initAgg [])
      (BEvent.blockStartToolUse 0 (some "t1") (some "kubectl") ::
        ([BEvent.blockDeltaToolUse 0 (some "\x7b\"comman"),
          BEvent.blockDeltaToolUse 0 (some "d\":\"get pods\"\x7d")] ++
          [BEvent.blockStop 0])) =
      ({ initAgg [] with currentToolCall := none,
                         collectedToolCalls := [⟨"t1", "kubectl",
                           lastParsedArgs [] [BEvent.blockDeltaToolUse 0 (some "\x7b\"comman"),
                             BEvent.blockDeltaToolUse 0 (some "d\":\"get pods\"\x7d")]⟩] },
       [StreamUnit.completedTool ⟨"t1", "kubectl",
          lastParsedArgs [] [BEvent.blockDeltaToolUse 0 (some "\x7b\"comman"),
            BEvent.blockDeltaToolUse 0 (some "d\":\"get pods\"\x7d")]⟩]) :=
  claim2_fragment_handling (initAgg []) 0 0 (some "t1") (some "kubectl")
    [BEvent.blockDeltaToolUse 0 (some "\x7b\"comman"),
     BEvent.blockDeltaToolUse 0 (some "d\":\"get pods\"\x7d")] (by decide)

/-- C5 counterexample: the iterator ignores the slot index on close
events, so a `ContentBlockStop` for a DIFFERENT slot (2) completes the
tool call opened in slot 1 even though slot 1 never received a matching
close: one completed-tool-call unit is emitted for it and its tool-call
block is committed to history, where the claim requires zero. -/
theorem claim5_cex :
    (runAll (initAgg [])
      [BEvent.blockStartToolUse 1 (some "t1") (some "kubectl"),
       BEvent.blockStop 2, BEvent.messageStop]).2 =
      [StreamUnit.completedTool ⟨"t1", "kubectl", []⟩] ∧
    (runAll (initAgg [])
      [BEvent.blockStartToolUse 1 (some "t1") (some "kubectl"),
       BEvent.blockStop 2, BEvent.messageStop]).1.history =
      [{ role := .assistant, content := [.toolUse "t1" "kubectl" []] }] :=
  ⟨by decide, by decide⟩

/-- C5 (amended): the aggregator keys nothing by slot; a tool-call slot is
discarded only when NO close event at all follows its open.  For every
streaming turn where a tool-call slot with fresh id `i` is opened and no
`blockStop` event (for any slot) occurs afterwards, no completed-tool-call
unit with id `i` is emitted and no tool-use block with id `i` is committed
to history — for any drain budget, abandoned or exhausted. -/
theorem claim5_orphan_discard (h0 : List BMessage) (pre post : List BEvent)
    (k : Nat) (i n : String) (b : Nat)
    (hpre : ¬ i ∈ openToolIds pre)
    (hh0 : ¬ i ∈ histToolIds h0)
    (hpost : noBlockStop post = true) :
    (∀ u ∈ (runAgg (initAgg h0)
        (pre ++ BEvent.blockStartToolUse k (some i) (some n) :: post) b).units,
      u.completedId ≠ some i) ∧
    ¬ i ∈ histToolIds (runAgg (initAgg h0)
        (pre ++ BEvent.blockStartToolUse k (some i) (some n) :: post) b).state.history := by
  have hinit : ¬ i ∈ stateToolIds (initAgg h0) := by
    simpa [stateToolIds, collectedIds, initAgg] using hh0
  have hstate1 : ¬ i ∈ stateToolIds (runAgg (initAgg h0) pre b).state := by
    intro hmem
    have hx := runAgg_toolIds pre (initAgg h0) b i (List.mem_append.2 (Or.inl hmem))
    rcases List.mem_append.1 hx with hy | hy
    · exact hinit hy
    · exact hpre hy
  have hunits1 : ¬ i ∈ unitCompletedIds (runAgg (initAgg h0) pre b).units := by
    intro hmem
    have hx := runAgg_toolIds pre (initAgg h0) b i (List.mem_append.2 (Or.inr hmem))
    rcases List.mem_append.1 hx with hy | hy
    · exact hinit hy
    · exact hpre hy
  have hcoll1 : ¬ i ∈ collectedIds (runAgg (initAgg h0) pre b).state := by
    intro hmem
    exact hstate1 (List.mem_append.2 (Or.inl (List.mem_append.2 (Or.inr hmem))))
  have hhist1 : ¬ i ∈ histToolIds (runAgg (initAgg h0) pre b).state.history := by
    intro hmem
    exact hstate1 (List.mem_append.2 (Or.inr hmem))
  have hunits1m : ∀ u ∈ (runAgg (initAgg h0) pre b).units, u.completedId ≠ some i := by
    intro u hu hcid
    exact hunits1 (List.mem_filterMap.2 ⟨u, hu, hcid⟩)
  rw [runAgg_append pre (BEvent.blockStartToolUse k (some i) (some n) :: post) (initAgg h0) b]
  by_cases hab : (runAgg (initAgg h0) pre b).aborted
  · rw [if_pos hab]
    exact ⟨hunits1m, hhist1⟩
  · rw [if_neg hab]
    have hstep : stepEvent (runAgg (initAgg h0) pre b).state
        (BEvent.blockStartToolUse k (some i) (some n)) =
        ({ (runAgg (initAgg h0) pre b).state with
            currentToolCall := some ⟨i, n, []⟩ }, none) := rfl
    rw [runAgg_cons_none post _ hstep]
    obtain ⟨hc2, hu2, hh2⟩ := runAgg_noBlockStop post
      ({ (runAgg (initAgg h0) pre b).state with currentToolCall := some ⟨i, n, []⟩ })
      (runAgg (initAgg h0) pre b).budget hpost
    constructor
    · intro u hu
      simp only [List.mem_append] at hu
      rcases hu with hu | hu
      · exact hunits1m u hu
      · intro hcid
        have := hu2 u hu
        rw [this] at hcid
        cases hcid
    · intro hmem
      simp only at hmem
      rcases hh2 i hmem with hy | hy
      · exact hhist1 hy
      · exact hcoll1 hy

/-- C5 witness: a tool call opened with id "t9" after which only deltas,
a message stop and metadata arrive (no close at all) is discarded: no
completed-tool-call unit for it and nothing in history. -/
theorem claim5_witness :
    (∀ u ∈ (runAgg (initAgg [])
        ([BEvent.messageStart, BEvent.blockDeltaText 0 "Hi"] ++
          BEvent.blockStartToolUse 1 (some "t9") (some "kubectl") ::
          [BEvent.blockDeltaToolUse 1 (some "\x7b\"comman"),
           BEvent.messageStop,
           BEvent.metadata (some ⟨some 5, some 2, some 7⟩)]) 9).units,
      u.completedId ≠ some "t9") ∧
    ¬ "t9" ∈ histToolIds (runAgg (initAgg [])
        ([BEvent.messageStart, BEvent.blockDeltaText 0 "Hi"] ++
          BEvent.blockStartToolUse 1 (some "t9") (some "kubectl") ::
          [BEvent.blockDeltaToolUse 1 (some "\x7b\"comman"),
           BEvent.messageStop,
           BEvent.metadata (some ⟨some 5, some 2, some 7⟩)]) 9).state.history :=
  claim5_orphan_discard [] [BEvent.messageStart, BEvent.blockDeltaText 0 "Hi"]
    [BEvent.blockDeltaToolUse 1 (some "\x7b\"comman"),
     BEvent.messageStop, BEvent.metadata (some ⟨some 5, some 2, some 7⟩)]
    1 "t9" "kubectl" 9 (by decide) (by decide) (by decide)

/-- C6 counterexample: two successful `Send` calls where the first backend
reply is an empty message break strict alternation: the first call appends
its user message but no assistant message (empty responses are skipped),
so the committed history runs user, user, assistant. -/
theorem claim6_cex :
    (runSends ⟨"us.anthropic.claude-sonnet-4-20250514-v1:0", "", []⟩
      [([GContent.str "hi"], ⟨.message [], .nilPayload⟩),
       ([GContent.str "there"], ⟨.message [.text "4"], .nilPayload⟩)]).map
        (fun cs => altFrom .user (cs.history.map fun msg => msg.role)) = some false := by
  decide

/-- C6 (amended): for every sequence of successful `Send` calls each of
which appends a user message (nonempty joined text or tool results) and
receives a nonempty assistant response (text or tool calls), the committed
history strictly alternates user and assistant messages starting with
user.  (The system prompt never enters the Bedrock history at all, so it
is trivially outside the alternation.) -/
theorem claim6_role_alternation (m sp : String)
    (turns : List (List GContent × BackendReply)) (csf : BSession)
    (hgood : ∀ t ∈ turns, goodTurn t)
    (hrun : runSends ⟨m, sp, []⟩ turns = some csf) :
    altFrom .user (csf.history.map fun msg => msg.role) = true :=
  (runSends_alternation_aux turns ⟨m, sp, []⟩ csf hgood rfl rfl hrun).1

/-- C6 witness: one concrete good turn leaves an alternating history
user, assistant. -/
theorem claim6_witness :
    altFrom .user ((⟨"us.anthropic.claude-sonnet-4-20250514-v1:0", "",
      [{ role := Role.user, content := [BBlock.text "What is 2+2?"] },
       { role := Role.assistant, content := [BBlock.text "4"] }]⟩ : BSession).history.map
        fun msg => msg.role) = true :=
  claim6_role_alternation "us.anthropic.claude-sonnet-4-20250514-v1:0" ""
    [([GContent.str "What is 2+2?"], ⟨.message [.text "4"], .nilPayload⟩)]
    ⟨"us.anthropic.claude-sonnet-4-20250514-v1:0", "",
      [{ role := Role.user, content := [BBlock.text "What is 2+2?"] },
       { role := Role.assistant, content := [BBlock.text "4"] }]⟩
    (by
      intro t ht
      simp only [List.mem_singleton] at ht
      subst ht
      exact ⟨Or.inl (by decide), Or.inl (by decide)⟩)
    (by decide)

end KubectlAI
